import Mathlib

/-!
# TagMark runtime: a shallow embedding of the core subsystems

This file embeds, in Lean, the parts of `src/tagmark.js` that the verified
claims are about: the handle/state model (`resolveNamespace`, `readHandle`,
`writeHandle`), the two-mode handle proxy, the SID computation (`makeSid`)
and the renderer's sibling walk (`renderChildren` / `renderWhen` /
`renderLoop` / `renderElement`), the expression cache (`handlesKey`,
`compileExpr`, and the flattened-scope spread that carries the `_keyCache`
property), the case-insensitive environment (`buildEnv`, `_canonicalCI`),
the first-that-compiles interpolation parser (`_parseStructure`,
`_canCompile`), and URL-fragment serialization (`syncStateToUrl`'s
`serialize` and `parseHash`).

Modelling conventions:
* JavaScript values are the inductive `JVal`.  Primitive values are modelled
  as having no own properties (state paths in the runtime address plain data
  objects); property assignment on a primitive raises a `TypeError`, as it
  does under the `'use strict'` directive that covers the whole source file.
* Mutation is explicit state passing: functions that mutate return the new
  state, functions that can throw return `Except String`.
* The host compiler used by `_canCompile` is an oracle parameter
  (`String → Bool`), since the runtime delegates that check to the host's
  dynamic-function primitive.
* Object identity (JavaScript `===` on objects and proxies) is modelled by
  numeric ids (`JSRef.ref`).
-/

namespace TagMark

/-- The `{` character (written by code point to keep string literals plain). -/
def lbrace : Char := Char.ofNat 123

/-- The `}` character. -/
def rbrace : Char := Char.ofNat 125

/-- ASCII upper-casing of a string, as `String.prototype.toUpperCase` acts on
the ASCII identifiers the runtime deals with. -/
def upperStr (s : String) : String := String.mk (s.data.map Char.toUpper)

/-- Association-list lookup (first match wins), as JavaScript property lookup
on plain objects. -/
def lookupP {α : Type} (k : String) : List (String × α) → Option α
  | [] => none
  | (k2, v) :: rest => if k2 = k then some v else lookupP k rest

/-- `obj[k] = v` on a plain object: overwrite in place if the key exists,
append otherwise (JavaScript preserves insertion order this way). -/
def setFieldP {α : Type} (fs : List (String × α)) (k : String) (v : α) :
    List (String × α) :=
  match fs with
  | [] => [(k, v)]
  | (k2, w) :: rest => if k2 = k then (k2, v) :: rest else (k2, w) :: setFieldP rest k v

/-- Lexicographic comparison on code points (the default
`Array.prototype.sort` comparator; it agrees with UTF-16 code-unit order on
the identifiers and keys the runtime sorts). -/
def strLtChars : List Char → List Char → Bool
  | [], [] => false
  | [], _ :: _ => true
  | _ :: _, [] => false
  | a :: as, b :: bs =>
    if a.toNat < b.toNat then true
    else if a.toNat = b.toNat then strLtChars as bs
    else false

/-- `a ≤ b` under the sort comparator. -/
def strLe (a b : String) : Bool := !(strLtChars b.data a.data)

/-- Insert into a string list kept in ascending order (helper for the
JavaScript `Array.prototype.sort` model). -/
def insertSorted (x : String) : List String → List String
  | [] => [x]
  | y :: ys => if strLe x y then x :: y :: ys else y :: insertSorted x ys

/-- `Array.prototype.sort()` on strings (lexicographic). -/
def sortStrings : List String → List String
  | [] => []
  | x :: xs => insertSorted x (sortStrings xs)

/-- `array.join(',')`. -/
def joinComma : List String → String
  | [] => ""
  | [x] => x
  | x :: xs => x ++ "," ++ joinComma xs

-- ## JavaScript values

/-- JavaScript values as stored in the reactive namespaces: `undefined`,
`null`, primitives, arrays, and plain objects (ordered field lists). -/
inductive JVal where
  | undef
  | null
  | bool (b : Bool)
  | num (n : Int)
  | str (s : String)
  | arr (xs : List JVal)
  | obj (fs : List (String × JVal))

/-- The loose `x == null` test used throughout the runtime: true exactly for
`null` and `undefined`. -/
def JVal.isNullish : JVal → Bool
  | .undef => true
  | .null => true
  | _ => false

/-- Property read `base[seg]`.  Objects look up own fields; arrays answer
numeric indices and `length`; primitives (which have no own data properties)
read as `undefined`. -/
def getProp : JVal → String → JVal
  | .obj fs, seg => (lookupP seg fs).getD .undef
  | .arr xs, seg =>
    match seg.toNat? with
    | some i => (xs.get? i).getD .undef
    | none => if seg = "length" then .num xs.length else .undef
  | _, _ => JVal.undef

/-- Property write `base[seg] = v`.  Under `'use strict'` (which covers the
whole source file) assigning a property of a primitive, `null` or `undefined`
throws a `TypeError`.  Array stores are modelled for in-range and appending
numeric indices. -/
def setProp : JVal → String → JVal → Except String JVal
  | .obj fs, seg, v => .ok (.obj (setFieldP fs seg v))
  | .arr xs, seg, v =>
    match seg.toNat? with
    | some i =>
      if i < xs.length then .ok (.arr (xs.set i v))
      else if i = xs.length then .ok (.arr (xs ++ [v]))
      else .error "TypeError: unmodelled sparse array store"
    | none => .error "TypeError: unmodelled non-index array store"
  | _, _, _ => .error "TypeError: cannot set a property of a primitive value"

-- ## Handles and namespaces

/-- A handle: a value-less pair of a root-namespace name and path segments
(`class Handle` in the source). -/
structure Handle where
  root : String
  path : List String
deriving DecidableEq

/-- `Handle.prototype.extend`. -/
def Handle.extend (h : Handle) (seg : String) : Handle :=
  ⟨h.root, h.path ++ [seg]⟩

/-- The namespace set of a `TagMarkRuntime`: `global`, `url` (either may
still be `null` before bootstrap, hence `Option`), and the `locals` map. -/
structure App where
  globalNs : Option JVal
  urlNs : Option JVal
  locals : List (String × JVal)

/-- `resolveNamespace(app, root)`: `global` and `url` answer the designated
namespaces, anything else consults the locals map (`undefined` if absent). -/
def resolveNamespace (app : App) (root : String) : Option JVal :=
  if root = "global" then app.globalNs
  else if root = "url" then app.urlNs
  else lookupP root app.locals

/-- Store an updated namespace value back (the functional counterpart of the
in-place mutation `writeHandle` performs). -/
def setNamespace (app : App) (root : String) (ns : JVal) : App :=
  if root = "global" then { app with globalNs := some ns }
  else if root = "url" then { app with urlNs := some ns }
  else { app with locals := setFieldP app.locals root ns }

/-- The loop body of `readHandle`: `if (cur == null) return undefined;
cur = cur[seg]` for each segment, returning the final value. -/
def readPath : JVal → List String → JVal
  | cur, [] => cur
  | cur, seg :: rest => if cur.isNullish then .undef else readPath (getProp cur seg) rest

/-- `readHandle(app, handle)`: resolve the root namespace (`undefined` when
missing) and follow the path. -/
def readHandle (app : App) (h : Handle) : JVal :=
  match resolveNamespace app h.root with
  | none => .undef
  | some base => readPath base h.path

/-- The loop body of `writeHandle`: for each intermediate segment, replace a
nullish `cur[seg]` by a fresh `{}` and descend; finally assign the last
segment.  An empty path makes the source read `path[-1]`, i.e. `undefined`,
so the assigned property key is the string `"undefined"`. -/
def writePath : JVal → List String → JVal → Except String JVal
  | cur, [], v => setProp cur "undefined" v
  | cur, [last], v => setProp cur last v
  | cur, seg :: rest, v =>
    match cur with
    | .obj fs =>
      let child := getProp (.obj fs) seg
      let child2 := if child.isNullish then .obj [] else child
      match writePath child2 rest v with
      | .ok w => setProp (.obj fs) seg w
      | .error e => .error e
    | .arr xs =>
      let child := getProp (.arr xs) seg
      let child2 := if child.isNullish then .obj [] else child
      match writePath child2 rest v with
      | .ok w => setProp (.arr xs) seg w
      | .error e => .error e
    | _ => .error "TypeError: cannot set a property of a primitive value"

/-- `writeHandle(app, handle, value)`: throw `Unknown handle root` when the
root namespace is missing, otherwise write along the path (creating `{}` for
nullish intermediates). -/
def writeHandle (app : App) (h : Handle) (v : JVal) : Except String App :=
  match resolveNamespace app h.root with
  | none => .error ("Unknown handle root " ++ h.root)
  | some base =>
    match writePath base h.path v with
    | .ok ns => .ok (setNamespace app h.root ns)
    | .error e => .error e


-- ## JSON.stringify (used by `makeSid` iteration suffixes, `stableStringify`,
-- and the URL JSON segment)

/-- Lower-case hexadecimal digit (for `\u00XX` escapes in JSON strings). -/
def hexLower (d : Nat) : Char :=
  if d < 10 then Char.ofNat (48 + d) else Char.ofNat (87 + d)

/-- Upper-case hexadecimal digit (for percent-escapes in URL encoding). -/
def hexUpper (d : Nat) : Char :=
  if d < 10 then Char.ofNat (48 + d) else Char.ofNat (55 + d)

/-- Decimal digits of a positive natural, least significant first. -/
def natDigitsRevAux : Nat → Nat → List Char
  | 0, _ => []
  | fuel + 1, n =>
    if n = 0 then [] else Char.ofNat (48 + n % 10) :: natDigitsRevAux fuel (n / 10)

/-- Decimal digits of a positive natural, least significant first (the fuel
`n` always suffices, since a number has at most as many digits as its value). -/
def natDigitsRev (n : Nat) : List Char := natDigitsRevAux n n

/-- Decimal rendering of a natural number. -/
def natChars (n : Nat) : List Char :=
  if n = 0 then ['0'] else (natDigitsRev n).reverse

/-- Decimal rendering of an integer (JSON number output for the integral
numbers this model covers). -/
def intChars (n : Int) : List Char :=
  if n < 0 then '-' :: natChars n.natAbs else natChars n.toNat

/-- JSON escape of one character, as `JSON.stringify` emits it. -/
def escChar (c : Char) : List Char :=
  if c = '"' then ['\\', '"']
  else if c = '\\' then ['\\', '\\']
  else if c = Char.ofNat 8 then ['\\', 'b']
  else if c = Char.ofNat 9 then ['\\', 't']
  else if c = Char.ofNat 10 then ['\\', 'n']
  else if c = Char.ofNat 12 then ['\\', 'f']
  else if c = Char.ofNat 13 then ['\\', 'r']
  else if c.toNat < 32 then
    ['\\', 'u', '0', '0', hexLower (c.toNat / 16), hexLower (c.toNat % 16)]
  else [c]

/-- JSON escape of a character list (string body, without the quotes). -/
def escList : List Char → List Char
  | [] => []
  | c :: rest => escChar c ++ escList rest

/-- A JSON string literal: quote, escaped body, quote. -/
def escStr (s : String) : List Char := '"' :: (escList s.data ++ ['"'])

/-- `true` exactly on `undefined`. -/
def JVal.isUndef : JVal → Bool
  | .undef => true
  | _ => false

mutual

/-- The normalization `JSON.stringify` applies before printing: `undefined`
array elements print as `null`, `undefined` object properties are omitted. -/
def stripUndef : JVal → JVal
  | .arr xs => .arr (stripElems xs)
  | .obj fs => .obj (stripFields fs)
  | v => v

/-- Array elements under `stripUndef`. -/
def stripElems : List JVal → List JVal
  | [] => []
  | x :: xs => (if x.isUndef then .null else stripUndef x) :: stripElems xs

/-- Object fields under `stripUndef`. -/
def stripFields : List (String × JVal) → List (String × JVal)
  | [] => []
  | (k, v) :: rest =>
    if v.isUndef then stripFields rest else (k, stripUndef v) :: stripFields rest

end

mutual

/-- JSON text of a (previously `stripUndef`-normalized) value, as a character
list. -/
def jprint : JVal → List Char
  | .undef => 'n' :: ('u' :: ('l' :: ['l']))
  | .null => 'n' :: ('u' :: ('l' :: ['l']))
  | .bool true => 't' :: ('r' :: ('u' :: ['e']))
  | .bool false => 'f' :: ('a' :: ('l' :: ('s' :: ['e'])))
  | .num n => intChars n
  | .str s => escStr s
  | .arr xs => '[' :: jprintElems xs
  | .obj fs => lbrace :: jprintFields fs

/-- Array elements followed by the closing bracket. -/
def jprintElems : List JVal → List Char
  | [] => [']']
  | [x] => jprint x ++ [']']
  | x :: xs => jprint x ++ (',' :: jprintElems xs)

/-- Object members followed by the closing brace. -/
def jprintFields : List (String × JVal) → List Char
  | [] => [rbrace]
  | [(k, v)] => escStr k ++ (':' :: (jprint v ++ [rbrace]))
  | (k, v) :: fs => escStr k ++ (':' :: (jprint v ++ (',' :: jprintFields fs)))

end

/-- `JSON.stringify` as a string-valued function. -/
def jsonStringify (v : JVal) : String := String.mk (jprint (stripUndef v))

-- ## SID computation and the stable marker key

/-- `makeSid(parentSid, segment, iteration)`: the iteration suffix
`::JSON.stringify(iteration)` is added only when `iteration != null`
(loose comparison, so `null` and `undefined` add nothing). -/
def makeSid (parentSid seg : String) (iter : Option JVal) : String :=
  match iter with
  | none => parentSid ++ "/" ++ seg
  | some v =>
    if v.isNullish then parentSid ++ "/" ++ seg
    else parentSid ++ "/" ++ seg ++ "::" ++ jsonStringify v

/-- Insertion into a list of key/value pairs ordered by key. -/
def insertByKey {α : Type} (x : String × α) : List (String × α) → List (String × α)
  | [] => [x]
  | y :: ys => if strLe x.1 y.1 then x :: y :: ys else y :: insertByKey x ys

/-- Sort key/value pairs by key (the `Object.keys(obj).sort()` step of
`stableStringify` and of the URL serializer). -/
def sortByKey {α : Type} : List (String × α) → List (String × α)
  | [] => []
  | x :: xs => insertByKey x (sortByKey xs)

mutual

/-- `stableStringify`: JSON-like rendering with object keys sorted, used for
duplicate-marker comparison in `renderLoop`. -/
def stableStringify : JVal → String
  | .undef => "undefined"
  | .null => "null"
  | .bool true => "true"
  | .bool false => "false"
  | .num n => String.mk (intChars n)
  | .str s => String.mk (escStr s)
  | .arr xs => "[" ++ joinComma (stableElems xs) ++ "]"
  | .obj fs =>
    String.singleton lbrace ++
      joinComma ((sortByKey (stableFields fs)).map Prod.snd) ++
      String.singleton rbrace

/-- Renderings of array elements for `stableStringify`. -/
def stableElems : List JVal → List String
  | [] => []
  | x :: xs => stableStringify x :: stableElems xs

/-- `(key, rendered member)` pairs for `stableStringify` of an object. -/
def stableFields : List (String × JVal) → List (String × String)
  | [] => []
  | (k, v) :: rest =>
    (k, String.mk (escStr k) ++ ":" ++ stableStringify v) :: stableFields rest

end

-- ## The renderer walk (renderChildren / renderElement / renderWhen / renderLoop)

/-- Source-template nodes, with expressions already evaluated: an element's
`test` attribute is its boolean outcome (`none` when absent), a `Loop`'s
rows are the list of its marker values.  The `marker` field records the
element's `marker` attribute (present in the authored template; the renderer
never reads it). -/
inductive SNode where
  | text (s : String)
  | elem (tag : String) (marker : Option String) (test : Option Bool)
      (children : List SNode)
  | whenN (test : Option Bool) (children : List SNode)
  | elseN (test : Option Bool) (children : List SNode)
  | loopN (rows : List JVal) (children : List SNode)

/-- Rendered virtual-DOM nodes: text, or an element carrying its SID (the
`key` prop the renderer assigns). -/
inductive RNode where
  | text (s : String)
  | node (tag : String) (sid : String) (children : List RNode)

/-- The `whenContext` update `renderChildren` performs before rendering a
sibling: reset to null at any element that is not `When`/`Else`, fresh
`\x7bmatched: false\x7d` at a `When`, untouched at text nodes and `Else`. -/
def ctxReset (n : SNode) (ctx : Option Bool) : Option Bool :=
  match n with
  | .text _ => ctx
  | .whenN _ _ => some false
  | .elseN _ _ => ctx
  | _ => none

/-- Element test used by `renderChildren` (`nodeType === ELEMENT_NODE`). -/
def SNode.isTextNode : SNode → Bool
  | .text _ => true
  | _ => false

/-- `node.nextElementSibling` relative to a list of following siblings. -/
def firstElem : List SNode → Option SNode
  | [] => none
  | .text _ :: rest => firstElem rest
  | n :: _ => some n

mutual

/-- `renderNode`: dispatch on the node kind.  Arguments: a recursion bound
(JavaScript recursion is bounded by the source tree; every theorem quantifies
over the bound and a run that exhausts it returns an error), the node, the
parent SID, the source segment (`seg`), the sibling `whenContext` (`none`
models a null context), and the node's next element sibling (used only by
`Loop`).  Returns the flat list of produced virtual nodes together with the
context as the caller's variable sees it afterwards. -/
def renderNodeS : Nat → SNode → String → String → Option Bool → Option SNode →
    Except String (List RNode × Option Bool)
  | 0, _, _, _, _, _ => .error "RangeError: too much recursion"
  | fuel + 1, n, parentSid, seg, ctx, next =>
    match n with
    | .text s => .ok ([.text s], ctx)
    | .elem tag _ test children =>
      -- renderElement: SID from parent SID and source segment; the `marker`
      -- attribute is not consulted; a false `test` skips the subtree.
      let sid := makeSid parentSid seg none
      if test = some false then .ok ([], ctx)
      else
        match renderSibs fuel sid children 0 none with
        | .ok chunks => .ok ([.node tag sid chunks.flatten], ctx)
        | .error e => .error e
    | .whenN test children =>
      renderWhenS fuel false test children parentSid seg ctx
    | .elseN test children =>
      renderWhenS fuel true test children parentSid seg ctx
    | .loopN rows children =>
      -- renderLoop: duplicate markers throw; zero rendered output consults
      -- the next element sibling for an `<Else>` fallback.
      let sid := makeSid parentSid ("LOOP" ++ seg) none
      match renderRows fuel rows children [] sid seg with
      | .error e => .error e
      | .ok rendered =>
        if rendered.isEmpty then
          match next with
          | some (.elseN t ech) =>
            match renderWhenS fuel true t ech parentSid (seg ++ "-else")
                (some false) with
            | .ok (out, _) => .ok (out, ctx)
            | .error e => .error e
          | _ => .ok ([], ctx)
        else .ok (rendered, ctx)

/-- `renderWhen`: a fresh `\x7bmatched:false\x7d` context is made when the
caller passed null; a matched context renders nothing; otherwise a truthy
test (or an absent test) renders the children into a keyed `div` and marks
the shared context as matched (invisible to the caller when the context was
fresh). -/
def renderWhenS : Nat → Bool → Option Bool → List SNode → String → String →
    Option Bool → Except String (List RNode × Option Bool)
  | 0, _, _, _, _, _, _ => .error "RangeError: too much recursion"
  | fuel + 1, _, test, children, parentSid, seg, ctx =>
    let sid := makeSid parentSid seg none
    let ok := test.getD true
    if ctx.getD false then .ok ([], ctx)
    else if ok then
      match renderSeq fuel sid children 0 (some true) with
      | .ok kids => .ok ([.node "div" sid kids], ctx.map (fun _ => true))
      | .error e => .error e
    else .ok ([], ctx)

/-- `renderChildren`: walk siblings with a shared `whenContext` variable
(updated per `ctxReset` before each sibling).  Returns one output chunk per
sibling. -/
def renderSibs : Nat → String → List SNode → Nat → Option Bool →
    Except String (List (List RNode))
  | 0, _, _, _, _ => .error "RangeError: too much recursion"
  | fuel + 1, parentSid, nodes, i, ctx =>
    match nodes with
    | [] => .ok []
    | n :: rest =>
      match renderNodeS fuel n parentSid (toString i) (ctxReset n ctx)
          (firstElem rest) with
      | .error e => .error e
      | .ok (out, ctx2) =>
        match renderSibs fuel parentSid rest (i + 1) ctx2 with
        | .ok tl => .ok (out :: tl)
        | .error e => .error e

/-- The `childNodes.map((n, i) => renderNode(n, …, fixed))` pattern used for
`When`/`Else` children (context shared, already matched) and for `Loop` row
children (no context). -/
def renderSeq : Nat → String → List SNode → Nat → Option Bool →
    Except String (List RNode)
  | 0, _, _, _, _ => .error "RangeError: too much recursion"
  | fuel + 1, parentSid, nodes, i, fixedCtx =>
    match nodes with
    | [] => .ok []
    | n :: rest =>
      match renderNodeS fuel n parentSid (toString i) fixedCtx
          (firstElem rest) with
      | .error e => .error e
      | .ok (out, _) =>
        match renderSeq fuel parentSid rest (i + 1) fixedCtx with
        | .ok tl => .ok (out ++ tl)
        | .error e => .error e

/-- The row loop of `renderLoop`: per row, check the stable marker key for
duplicates, build the per-row SID `makeSid(sid, seg, markVal)`, and render
the template children against it. -/
def renderRows : Nat → List JVal → List SNode → List String → String →
    String → Except String (List RNode)
  | 0, _, _, _, _, _ => .error "RangeError: too much recursion"
  | fuel + 1, rows, children, seen, loopSid, seg =>
    match rows with
    | [] => .ok []
    | r :: rest =>
      let markKey := stableStringify r
      if seen.contains markKey then
        .error ("Duplicate loop marker: " ++ markKey)
      else
        let childSid := makeSid loopSid seg (some r)
        match renderSeq fuel childSid children 0 none with
        | .error e => .error e
        | .ok kids =>
          match renderRows fuel rest children (markKey :: seen) loopSid seg with
          | .ok tl => .ok (kids ++ tl)
          | .error e => .error e

end

-- ## The two-mode handle proxy (C1)

/-- Proxy mode: `{…}` expressions get pure proxies, `@{…}` handlers get
effect proxies. -/
inductive Mode where
  | pure
  | effect
deriving DecidableEq

/-- The state-relevant operations an evaluated expression can perform through
a handle proxy: the `get` trap by itself (which calls `readHandle` and
returns a nested proxy, a snapshot, a primitive or a bound function), a call
of a function the `get` trap handed out (`val.bind(base)` — the method runs
with the live namespace object `readHandle` returned as `this`; `callPush`
stands for the canonical mutating method `Array.prototype.push` reached this
way), and the `set` trap. -/
inductive ProxyOp where
  | get (h : Handle) (prop : String)
  | callPush (h : Handle) (v : JVal)
  | set (h : Handle) (prop : String) (v : JVal)

/-- The error message thrown by the pure-mode `set` trap in
`makeHandleProxy`. -/
def pureMutationMsg : String := "Pure expressions must not mutate state"

/-- Direct in-place mutation of the live object graph: replace the node an
(existing) path reaches with the updated object.  This is what a bound
method's mutation of `base` amounts to — the object `readHandle` returned
is the node inside the namespace tree itself, so no set trap and no
strict-mode check runs on this path. -/
def mutatePath : JVal → List String → JVal → JVal
  | _, [], newv => newv
  | .obj fs, seg :: rest, newv =>
    .obj (setFieldP fs seg (mutatePath ((lookupP seg fs).getD .undef) rest newv))
  | .arr xs, seg :: rest, newv =>
    match seg.toNat? with
    | some i =>
      match xs.get? i with
      | some old => .arr (xs.set i (mutatePath old rest newv))
      | none => .arr xs
    | none => .arr xs
  | cur, _ :: _, _ => cur

/-- In-place mutation of the object at a handle's path (no-op when the root
namespace does not exist — then no live object was handed out). -/
def mutateHandle (app : App) (h : Handle) (newv : JVal) : App :=
  match resolveNamespace app h.root with
  | none => app
  | some ns => setNamespace app h.root (mutatePath ns h.path newv)

/-- One proxy-trap step against the namespace state.  A bare `get` changes
no state (it reads, snapshots or allocates a nested proxy).  A `callPush`
runs `Array.prototype.push` bound to the live object `readHandle` returned:
the array grows in place — in both modes, because `makeHandleProxy` guards
only the `set` trap and the `valueOf` snapshot, never a call of a function
its `get` trap handed out (`return val.bind(base)`).  A `set` in pure mode
throws `pureMutationMsg`; in effect mode it routes through `writeHandle` on
the extended handle.  The returned pair carries the (unchanged on throw)
state alongside the optional error. -/
def applyOp (mode : Mode) (app : App) : ProxyOp → Option String × App
  | .get _ _ => (none, app)
  | .callPush h v =>
    match readHandle app h with
    | .arr xs => (none, mutateHandle app h (.arr (xs ++ [v])))
    | _ => (some "TypeError: not a function", app)
  | .set h prop v =>
    match mode with
    | .pure => (some pureMutationMsg, app)
    | .effect =>
      match writeHandle app (h.extend prop) v with
      | .ok app2 => (none, app2)
      | .error e => (some e, app)

/-- Run a trace of proxy operations; an error aborts the evaluation with the
state as it stood when the throw happened. -/
def runOps (mode : Mode) (app : App) : List ProxyOp → Option String × App
  | [] => (none, app)
  | op :: rest =>
    match applyOp mode app op with
    | (some e, app2) => (some e, app2)
    | (none, app2) => runOps mode app2 rest


-- ## Flattened scopes and the expression cache (C5)

/-- The `handles` part of a flattened scope object (`Scope.prototype.flatten`).
`names` are the handle-alias property names in insertion order; `keyCache`
models the `_keyCache` property that `handlesKey` stores on the object
(`none` when the property is `undefined`). -/
structure FlatHandles where
  names : List String
  keyCache : Option String
deriving DecidableEq

/-- The signature `handlesKey` computes on a cache miss:
`names.map(n => n.toUpperCase()).sort().join(',')`, `''` for no names. -/
def handlesKeyCompute (names : List String) : String :=
  if names.isEmpty then "" else joinComma (sortStrings (names.map upperStr))

/-- `handlesKey(handles)`: answer the `_keyCache` property when present,
otherwise compute the signature and store it on the object. -/
def handlesKey (h : FlatHandles) : String × FlatHandles :=
  match h.keyCache with
  | some k => (k, h)
  | none =>
    let k := handlesKeyCompute h.names
    (k, ⟨h.names, some k⟩)

/-- The spread `\x7b...parentFlat.handles, ...this.handles\x7d` of
`Scope.prototype.flatten`: own enumerable properties of the parent flat
object — including a `_keyCache` set by an earlier `handlesKey` call — are
copied first, then the local frame's aliases. -/
def flattenHandles (parent : FlatHandles) (localNames : List String) :
    FlatHandles :=
  ⟨parent.names ++ localNames.filter (fun n => !(parent.names.contains n)),
    parent.keyCache⟩

/-- The expression cache of `TagMarkRuntime`: the `_exprCache` map (keys to
compiled-function identities, modelled as allocation numbers) and the
`_exprCacheStats.compiled` counter. -/
structure ExprCache where
  entries : List (String × Nat)
  compiled : Nat
deriving DecidableEq

/-- `compileExpr(expr, flatScope, cache, stats)`: key is
`expr + '||' + handlesKey(flatScope.handles)`; a hit returns the cached
compiled function unchanged, a miss compiles (allocating a fresh function,
modelled by the current counter value), bumps the counter and stores the
entry. -/
def compileExpr (expr : String) (h : FlatHandles) (st : ExprCache) :
    Nat × FlatHandles × ExprCache :=
  let sigh := handlesKey h
  let key := expr ++ "||" ++ sigh.1
  match lookupP key st.entries with
  | some fn => (fn, sigh.2, st)
  | none =>
    (st.compiled, sigh.2, ⟨st.entries ++ [(key, st.compiled)], st.compiled + 1⟩)

-- ## Evaluation environments and case-insensitive collision (C8)

/-- JavaScript primitive values (compared by value under `===`). -/
inductive PrimV where
  | undef
  | null
  | bool (b : Bool)
  | num (n : Int)
  | str (s : String)
deriving DecidableEq

/-- A JavaScript value as an operand of `===`: a primitive, or an object /
proxy identified by its allocation id. -/
inductive JSRef where
  | prim (p : PrimV)
  | ref (id : Nat)
deriving DecidableEq

/-- Strict equality `===`: value equality on primitives, identity on
objects. -/
def strictEq : JSRef → JSRef → Bool
  | .prim a, .prim b => a == b
  | .ref a, .ref b => a == b
  | _, _ => false

/-- `CaseInsensitiveFunction._prefix` followed by canonicalization: the
prefix list is `['$', '$H$']` scanned in order, so every `$`-prefixed name
matches at `'$'` and its canonical form is `'$' + rest.toUpperCase()`
(which equals the `$H$`-canonical form on handle parameters).  Non-`$`
names are case-sensitive and skipped. -/
def canonOf (k : String) : Option String :=
  match k.data with
  | c :: rest => if c = '$' then some (String.mk ('$' :: rest.map Char.toUpper)) else none
  | [] => none

/-- The loop of `CaseInsensitiveFunction._canonicalCI`: fold the environment
entries in insertion order into a canonical map, throwing when a canonical
name is already bound to a value that is not strictly equal. -/
def canonicalCIAux (acc : List (String × JSRef)) :
    List (String × JSRef) → Except String (List (String × JSRef))
  | [] => .ok acc
  | (k, v) :: rest =>
    match canonOf k with
    | none => canonicalCIAux acc rest
    | some canon =>
      match lookupP canon acc with
      | some w =>
        if strictEq w v then canonicalCIAux acc rest
        else
          .error ("Conflicting values for case-insensitive identifier \"" ++
            canon ++ "\".")
      | none => canonicalCIAux (acc ++ [(canon, v)]) rest

/-- `_canonicalCI(env)` (run on every `evaluate`). -/
def canonicalCI (env : List (String × JSRef)) :
    Except String (List (String × JSRef)) :=
  canonicalCIAux [] env

/-- The handle part of `buildEnv`: every alias `k` contributes the parameter
`'$H$' + k` bound to `makeHandleProxy(app, handle, mode)` — a freshly
allocated proxy object, modelled by consecutive allocation ids. -/
def buildHandleParams : List (String × Handle) → Nat → List (String × JSRef)
  | [], _ => []
  | (k, _) :: rest, id => ("$H$" ++ k, .ref id) :: buildHandleParams rest (id + 1)

/-- `buildEnv(app, flat, mode)`: scope values keep their original names,
handle aliases are wrapped in fresh proxies under the `$H$` prefix.
`firstProxyId` is the next unused allocation id. -/
def buildEnv (values : List (String × JSRef)) (handles : List (String × Handle))
    (firstProxyId : Nat) : List (String × JSRef) :=
  values ++ buildHandleParams handles firstProxyId

-- ## First-that-compiles interpolation parsing (C6)

/-- A parsed interpolation segment (`_parseStructure` items of type
`'lit'` or `'expr'`). -/
inductive Seg where
  | lit (s : String)
  | expr (s : String)
deriving DecidableEq

/-- JavaScript whitespace for `String.prototype.trim` (the characters that
occur in TagMark templates). -/
def jsWS (c : Char) : Bool :=
  c = ' ' || c = '\t' || c = '\n' || c = '\r' || c = '\x0b' || c = '\x0c'

/-- `body.trim()`: strip leading and trailing whitespace. -/
def trimStr (s : String) : String :=
  String.mk (((s.data.dropWhile jsWS).reverse.dropWhile jsWS).reverse)

/-- The inner `for (let j = open + 1; …)` loop of `_parseStructure`: scan the
characters after a `{`, and at each `}` test whether the accumulated body
(trimmed) compiles under the scope (`_canCompile`, here the oracle `canC`);
accept the first that does, keeping the characters after the `}`. -/
def firstCompilable (canC : String → Bool) (acc : List Char) :
    List Char → Option (String × List Char)
  | [] => none
  | c :: rest =>
    if c = rbrace then
      let body := trimStr (String.mk acc.reverse)
      if canC body then some (body, rest)
      else firstCompilable canC (c :: acc) rest
    else firstCompilable canC (c :: acc) rest

/-- A successful scan consumes at least the closing `}` (termination and
characterization helper). -/
theorem firstCompilable_length (canC : String → Bool) (acc : List Char)
    (cs : List Char) (b : String) (after : List Char)
    (h : firstCompilable canC acc cs = some (b, after)) :
    after.length < cs.length := by
  induction cs generalizing acc with
  | nil => simp [firstCompilable] at h
  | cons c rest ih =>
    simp only [firstCompilable] at h
    by_cases hc : c = rbrace
    · simp only [hc, if_pos rfl] at h
      by_cases hcc : canC (trimStr (String.mk acc.reverse))
      · simp only [hcc, if_pos] at h
        cases h
        simp
      · simp only [hcc] at h
        have := ih _ h
        simp
        omega
    · simp only [if_neg hc] at h
      have := ih _ h
      simp
      omega

/-- `_parseStructure(text, scope)`: split a string into literal and
expression segments.  Literal text runs up to the next `{`; from a `{` the
first-that-compiles scan either yields an expression segment (resuming after
the accepted `}`) or, when no candidate compiles, the `{` itself becomes a
one-character literal segment and scanning resumes right after it. -/
def parseInterp (canC : String → Bool) (cs : List Char) : List Seg :=
  let lit := cs.takeWhile (fun c => c ≠ lbrace)
  match hr : cs.dropWhile (fun c => c ≠ lbrace) with
  | [] => if lit.isEmpty then [] else [.lit (String.mk lit)]
  | _ :: r =>
    let tail : List Seg :=
      match hf : firstCompilable canC [] r with
      | some (body, after) => Seg.expr body :: parseInterp canC after
      | none => Seg.lit (String.singleton lbrace) :: parseInterp canC r
    if lit.isEmpty then tail else Seg.lit (String.mk lit) :: tail
  termination_by cs.length
  decreasing_by
    · have hsp : cs.takeWhile (fun c => c ≠ lbrace) ++
          cs.dropWhile (fun c => c ≠ lbrace) = cs := List.takeWhile_append_dropWhile _ _
      have h1 := firstCompilable_length canC [] r body after hf
      have h2 : (cs.takeWhile (fun c => c ≠ lbrace)).length +
          (cs.dropWhile (fun c => c ≠ lbrace)).length = cs.length := by
        rw [← List.length_append, hsp]
      rw [hr] at h2
      simp at h2
      omega
    · have hsp : cs.takeWhile (fun c => c ≠ lbrace) ++
          cs.dropWhile (fun c => c ≠ lbrace) = cs := List.takeWhile_append_dropWhile _ _
      have h2 : (cs.takeWhile (fun c => c ≠ lbrace)).length +
          (cs.dropWhile (fun c => c ≠ lbrace)).length = cs.length := by
        rw [← List.length_append, hsp]
      rw [hr] at h2
      simp at h2
      omega


-- ## URL-fragment synchronization (C9)

-- ### UTF-8

/-- UTF-8 encoding of a code point. -/
def utf8Enc (n : Nat) : List Nat :=
  if n < 128 then [n]
  else if n < 2048 then [192 + n / 64, 128 + n % 64]
  else if n < 65536 then [224 + n / 4096, 128 + n / 64 % 64, 128 + n % 64]
  else [240 + n / 262144, 128 + n / 4096 % 64, 128 + n / 64 % 64, 128 + n % 64]

-- Decode a UTF-8 byte list into characters (`none` on malformed input or
-- invalid code points).  Multi-byte sequences accumulate their high bits into
-- `hi` while consuming continuation bytes one at a time.
mutual

/-- Decode from a sequence-initial byte. -/
def utf8DecAll : List Nat → Option (List Char)
  | [] => some []
  | b0 :: tl =>
    if b0 < 128 then
      if Nat.isValidChar b0 then (utf8DecAll tl).map (fun cs => Char.ofNat b0 :: cs)
      else none
    else if b0 < 192 then none
    else if b0 < 224 then utf8Dec1 (b0 - 192) tl
    else if b0 < 240 then utf8Dec2 (b0 - 224) tl
    else if b0 < 248 then utf8Dec3 (b0 - 240) tl
    else none

/-- One continuation byte remains. -/
def utf8Dec1 (hi : Nat) : List Nat → Option (List Char)
  | [] => none
  | b1 :: r =>
    if 128 ≤ b1 ∧ b1 < 192 then
      if Nat.isValidChar (hi * 64 + (b1 - 128)) then
        (utf8DecAll r).map (fun cs => Char.ofNat (hi * 64 + (b1 - 128)) :: cs)
      else none
    else none

/-- Two continuation bytes remain. -/
def utf8Dec2 (hi : Nat) : List Nat → Option (List Char)
  | [] => none
  | b1 :: r => if 128 ≤ b1 ∧ b1 < 192 then utf8Dec1 (hi * 64 + (b1 - 128)) r else none

/-- Three continuation bytes remain. -/
def utf8Dec3 (hi : Nat) : List Nat → Option (List Char)
  | [] => none
  | b1 :: r => if 128 ≤ b1 ∧ b1 < 192 then utf8Dec2 (hi * 64 + (b1 - 128)) r else none

end

-- ### Percent encoding

/-- Hex digit value (accepting both cases, as the host decoders do). -/
def hexVal (c : Char) : Option Nat :=
  if '0' ≤ c ∧ c ≤ '9' then some (c.toNat - 48)
  else if 'A' ≤ c ∧ c ≤ 'F' then some (c.toNat - 55)
  else if 'a' ≤ c ∧ c ≤ 'f' then some (c.toNat - 87)
  else none

/-- `%XX` escape of one byte (upper-case hex, as the host encoders emit). -/
def pctByte (b : Nat) : List Char := ['%', hexUpper (b / 16), hexUpper (b % 16)]

-- Percent-decoding to bytes.  `plusSpace` selects the
-- `application/x-www-form-urlencoded` rule (`+` means space) used by
-- `URLSearchParams`; `decodeURIComponent` leaves `+` alone.  The model rejects
-- malformed escapes (where `URLSearchParams` would pass them through and
-- `decodeURIComponent` would throw); the round-trip theorems only traverse
-- well-formed text.
mutual

/-- Decode from a position outside an escape. -/
def percentDecodeBytes (plusSpace : Bool) : List Char → Option (List Nat)
  | [] => some []
  | c :: rest =>
    if c = '%' then percentDecodeHex plusSpace rest
    else
      (percentDecodeBytes plusSpace rest).map
        (fun bs => (if plusSpace && c = '+' then [32] else utf8Enc c.toNat) ++ bs)

/-- Decode the two hex digits after a `%`. -/
def percentDecodeHex (plusSpace : Bool) : List Char → Option (List Nat)
  | c1 :: c2 :: rest2 =>
    match hexVal c1, hexVal c2 with
    | some hi, some lo =>
      (percentDecodeBytes plusSpace rest2).map (fun bs => (16 * hi + lo) :: bs)
    | _, _ => none
  | _ => none

end

/-- String decoding: percent-decode to bytes, then UTF-8 decode. -/
def percentDecodeStr (plusSpace : Bool) (cs : List Char) : Option (List Char) :=
  match percentDecodeBytes plusSpace cs with
  | some bs => utf8DecAll bs
  | none => none

/-- The `application/x-www-form-urlencoded` safe set (bytes serialized
verbatim by `URLSearchParams`). -/
def formSafe (c : Char) : Bool :=
  c.isAlphanum || c = '*' || c = '-' || c = '.' || c = '_'

/-- One character under the `URLSearchParams` serializer. -/
def formEncodeChar (c : Char) : List Char :=
  if formSafe c then [c]
  else if c = ' ' then ['+']
  else (utf8Enc c.toNat).flatMap pctByte

/-- `URLSearchParams` serialization of a string. -/
def formEncode (cs : List Char) : List Char := cs.flatMap formEncodeChar

/-- The apostrophe character (part of `encodeURIComponent`'s safe set). -/
def quoteChar : Char := Char.ofNat 39

/-- The `encodeURIComponent` safe set. -/
def compSafe (c : Char) : Bool :=
  c.isAlphanum || c = '-' || c = '_' || c = '.' || c = '!' || c = '~' ||
    c = '*' || c = quoteChar || c = '(' || c = ')'

/-- One character under `encodeURIComponent`. -/
def compEncodeChar (c : Char) : List Char :=
  if compSafe c then [c] else (utf8Enc c.toNat).flatMap pctByte

/-- `encodeURIComponent`. -/
def compEncode (cs : List Char) : List Char := cs.flatMap compEncodeChar

-- ### Query-string form

/-- Join chunks with a separator character. -/
def intercalateChar (c : Char) : List (List Char) → List Char
  | [] => []
  | [x] => x
  | x :: xs => x ++ c :: intercalateChar c xs

/-- Split at every occurrence of a separator character. -/
def splitChar (c : Char) : List Char → List (List Char)
  | [] => [[]]
  | x :: rest =>
    if x = c then [] :: splitChar c rest
    else
      match splitChar c rest with
      | h :: t => (x :: h) :: t
      | [] => [[x]]

/-- `URLSearchParams.toString()` of one `set` pair. -/
def qsPair (k v : String) : List Char :=
  formEncode k.data ++ '=' :: formEncode v.data

/-- `URLSearchParams.toString()` of the pair list. -/
def qsSerialize (pairs : List (String × String)) : List Char :=
  intercalateChar '&' (pairs.map (fun p => qsPair p.1 p.2))

/-- One `k=v` segment under the `URLSearchParams` parser: key up to the
first `=`, value after it (empty when no `=` occurs). -/
def parsePairSeg (seg : List Char) : Option (String × String) :=
  let k := seg.takeWhile (fun c => c ≠ '=')
  let v :=
    match seg.dropWhile (fun c => c ≠ '=') with
    | [] => []
    | _ :: tl => tl
  match percentDecodeStr true k, percentDecodeStr true v with
  | some kd, some vd => some (String.mk kd, String.mk vd)
  | _, _ => none

/-- The `URLSearchParams(part)` entry list: split on `&`, drop empty
segments, parse each pair. -/
def qsParse (part : List Char) : Option (List (String × String)) :=
  ((splitChar '&' part).filter (fun s => !s.isEmpty)).mapM parsePairSeg

-- ### JSON parsing (the `JSON.parse` calls of `parseHash`)

-- JSON string-body parser: characters until the closing quote, undoing the
-- escapes `jprint` emits.
mutual

/-- Characters of a JSON string body up to the closing quote. -/
def jparseStrChars : List Char → Option (List Char × List Char)
  | [] => none
  | c :: rest =>
    if c = '"' then some ([], rest)
    else if c = '\\' then jparseEsc rest
    else (jparseStrChars rest).map (fun p => (c :: p.1, p.2))

/-- The character after a backslash. -/
def jparseEsc : List Char → Option (List Char × List Char)
  | [] => none
  | e :: r =>
    if e = '"' ∨ e = '\\' ∨ e = '/' then
      (jparseStrChars r).map (fun p => (e :: p.1, p.2))
    else if e = 'b' then (jparseStrChars r).map (fun p => (Char.ofNat 8 :: p.1, p.2))
    else if e = 't' then (jparseStrChars r).map (fun p => (Char.ofNat 9 :: p.1, p.2))
    else if e = 'n' then (jparseStrChars r).map (fun p => (Char.ofNat 10 :: p.1, p.2))
    else if e = 'f' then (jparseStrChars r).map (fun p => (Char.ofNat 12 :: p.1, p.2))
    else if e = 'r' then (jparseStrChars r).map (fun p => (Char.ofNat 13 :: p.1, p.2))
    else if e = 'u' then jparseHex4 r
    else none

/-- The four hex digits of a `\u` escape. -/
def jparseHex4 : List Char → Option (List Char × List Char)
  | h1 :: h2 :: h3 :: h4 :: r2 =>
    match hexVal h1, hexVal h2, hexVal h3, hexVal h4 with
    | some d1, some d2, some d3, some d4 =>
      (jparseStrChars r2).map
        (fun p => (Char.ofNat (((d1 * 16 + d2) * 16 + d3) * 16 + d4) :: p.1, p.2))
    | _, _, _, _ => none
  | _ => none

end

/-- Digit run accumulator (maximal munch). -/
def jparseDigitsAux (acc : Nat) : List Char → Nat × List Char
  | [] => (acc, [])
  | c :: rest =>
    if c.isDigit then jparseDigitsAux (acc * 10 + (c.toNat - 48)) rest
    else (acc, c :: rest)

/-- One or more decimal digits. -/
def jparseNatDigits (cs : List Char) : Option (Nat × List Char) :=
  match cs with
  | c :: _ => if c.isDigit then some (jparseDigitsAux 0 cs) else none
  | [] => none

/-- A JSON number (the integral subset this model prints). -/
def jparseNum (cs : List Char) : Option (JVal × List Char) :=
  match cs with
  | c :: rest =>
    if c = '-' then
      match jparseNatDigits rest with
      | some (n, r) => some (.num (-(n : Int)), r)
      | none => none
    else
      match jparseNatDigits cs with
      | some (n, r) => some (.num ((n : Int)), r)
      | none => none
  | [] => none

mutual

/-- Fuel-indexed JSON value parser (fuel bounds the nesting structure; the
callers pass the input length, which always suffices). -/
def jparseVal : Nat → List Char → Option (JVal × List Char)
  | 0, _ => none
  | fuel + 1, cs =>
    match cs with
    | [] => none
    | c :: rest =>
      if c = 'n' then
        if rest.take 3 = ['u', 'l', 'l'] then some (.null, rest.drop 3) else none
      else if c = 't' then
        if rest.take 3 = ['r', 'u', 'e'] then some (.bool true, rest.drop 3)
        else none
      else if c = 'f' then
        if rest.take 4 = ['a', 'l', 's', 'e'] then some (.bool false, rest.drop 4)
        else none
      else if c = '"' then
        match jparseStrChars rest with
        | some (body, r) => some (.str (String.mk body), r)
        | none => none
      else if c = '[' then
        match rest with
        | r0 :: r =>
          if r0 = ']' then some (.arr [], r)
          else
            match jparseElems fuel (r0 :: r) with
            | some (xs, r2) => some (.arr xs, r2)
            | none => none
        | [] => none
      else if c = lbrace then
        match rest with
        | r0 :: r =>
          if r0 = rbrace then some (.obj [], r)
          else
            match jparseFields fuel (r0 :: r) with
            | some (fs, r2) => some (.obj fs, r2)
            | none => none
        | [] => none
      else jparseNum cs

/-- One or more array elements followed by `]`. -/
def jparseElems : Nat → List Char → Option (List JVal × List Char)
  | 0, _ => none
  | fuel + 1, cs =>
    match jparseVal fuel cs with
    | none => none
    | some (v, r) =>
      match r with
      | [] => none
      | c :: r2 =>
        if c = ',' then
          match jparseElems fuel r2 with
          | some (vs, r3) => some (v :: vs, r3)
          | none => none
        else if c = ']' then some ([v], r2)
        else none

/-- One or more object members followed by the closing brace. -/
def jparseFields : Nat → List Char → Option (List (String × JVal) × List Char)
  | 0, _ => none
  | fuel + 1, cs =>
    match cs with
    | [] => none
    | c :: rest =>
      if c = '"' then
        match jparseStrChars rest with
        | none => none
        | some (k, r) =>
          match r with
          | [] => none
          | c1 :: r2 =>
            if c1 = ':' then
              match jparseVal fuel r2 with
              | none => none
              | some (v, r3) =>
                match r3 with
                | [] => none
                | c2 :: r4 =>
                  if c2 = ',' then
                    match jparseFields fuel r4 with
                    | some (fs, r5) => some ((String.mk k, v) :: fs, r5)
                    | none => none
                  else if c2 = rbrace then some ([(String.mk k, v)], r4)
                  else none
            else none
      else none

end


/-- `JSON.parse` on a full text: parse one value and require the input to be
consumed (the model prints no whitespace, so none is skipped). -/
def jsonParseFull (cs : List Char) : Option JVal :=
  match jparseVal (cs.length + 1) cs with
  | some (v, rest) => if rest.isEmpty then some v else none
  | none => none

-- ### serialize / parseHash

/-- `typeof v === 'object'` (true for objects, arrays and `null`). -/
def isObjType : JVal → Bool
  | .obj _ => true
  | .arr _ => true
  | .null => true
  | _ => false

/-- The `String(v)` coercion `URLSearchParams.set` applies to values in the
query-string branch (objects and arrays never reach it: the serializer
routes them to the JSON branch). -/
def primToParamString : JVal → String
  | .str s => s
  | .num n => String.mk (intChars n)
  | .bool true => "true"
  | .bool false => "false"
  | .null => "null"
  | .undef => "undefined"
  | .arr _ => ""
  | .obj _ => "[object Object]"

/-- The `serialize` helper of `syncStateToUrl`: empty map serializes to the
empty string; a map with any `typeof === 'object'` value is JSON-encoded
with sorted keys and passed through `encodeURIComponent`; otherwise a
`URLSearchParams` query string with sorted keys. -/
def serializeObj (pairs : List (String × JVal)) : List Char :=
  if pairs.isEmpty then []
  else if pairs.any (fun p => isObjType p.2) then
    compEncode (jprint (stripUndef (.obj (sortByKey pairs))))
  else
    qsSerialize ((sortByKey pairs).map (fun p => (p.1, primToParamString p.2)))

/-- The fragment `syncStateToUrl` writes (without the leading `#`):
non-empty serializations of the persistent and transient maps joined
with `#`.  `location.hash.slice(1)` hands exactly this string back to
`parseHash`. -/
def buildFragment (persistent transient : List (String × JVal)) : List Char :=
  let f1 := serializeObj persistent
  let f2 := serializeObj transient
  intercalateChar '#'
    ((if f1.isEmpty then [] else [f1]) ++ (if f2.isEmpty then [] else [f2]))

/-- `part.startsWith('\x7b') || part.startsWith('%7B')`. -/
def startsWithJson (p : List Char) : Bool :=
  p.take 1 = [lbrace] || p.take 3 = ['%', '7', 'B']

/-- One fragment part under `parseHash`: a JSON part is
`decodeURIComponent`ed and `JSON.parse`d (object properties are assigned,
a non-object result assigns nothing), any other part feeds
`URLSearchParams` and contributes its entries as strings. -/
def parsePart (p : List Char) : Option (List (String × JVal)) :=
  if startsWithJson p then
    match percentDecodeStr false p with
    | none => none
    | some s =>
      match jsonParseFull s with
      | some (.obj fs) => some fs
      | some _ => some []
      | none => none
  else
    match qsParse p with
    | none => none
    | some pairs => some (pairs.map (fun kv => (kv.1, JVal.str kv.2)))

/-- `Object.assign(target, src)` over ordered field lists. -/
def assignPairs (target : List (String × JVal)) :
    List (String × JVal) → List (String × JVal)
  | [] => target
  | (k, v) :: rest => assignPairs (setFieldP target k v) rest

/-- `parseHash`: empty fragment yields the empty map; otherwise split the
fragment on `#`, parse every non-empty part and assign the results in order.
Any part failing to parse makes the whole function return the empty map
(the `try`/`catch` around the loop). -/
def parseHash (frag : List Char) : List (String × JVal) :=
  if frag.isEmpty then []
  else
    match ((splitChar '#' frag).filter (fun p => !p.isEmpty)).mapM parsePart with
    | some maps => maps.foldl assignPairs []
    | none => []


/-- `true` exactly on strings (the scalar shape of the query-string leg). -/
def JVal.isStr : JVal → Bool
  | .str _ => true
  | _ => false

mutual

/-- No `undefined` occurs anywhere inside the value. -/
def noUndef : JVal → Bool
  | .undef => false
  | .arr xs => noUndefElems xs
  | .obj fs => noUndefFields fs
  | _ => true

/-- `noUndef` over array elements. -/
def noUndefElems : List JVal → Bool
  | [] => true
  | x :: xs => noUndef x && noUndefElems xs

/-- `noUndef` over object fields. -/
def noUndefFields : List (String × JVal) → Bool
  | [] => true
  | (_, v) :: fs => noUndef v && noUndefFields fs

end

-- ## Concrete claim inputs

/-- The C1 state: `@Global.items` holds an (initially empty) live array. -/
def c1App : App := ⟨some (.obj [("items", .arr [])]), some (.obj []), []⟩

/-- The handle `@Global.items`, whose live array the bound `push` mutates. -/
def c1H : Handle := ⟨"global", ["items"]⟩

/-- The state after the pure-mode `push(1)`: the array grew in place. -/
def c1App2 : App := ⟨some (.obj [("items", .arr [.num 1])]), some (.obj []), []⟩

/-- A concrete namespace set with no `form` local namespace. -/
def c10App : App := ⟨some (.obj []), some (.obj []), []⟩

/-- The handle `@form.x` whose root exists nowhere. -/
def c10H : Handle := ⟨"form", ["x"]⟩

/-- The state for the C2 counterexample: `@Global.a` holds the primitive 5. -/
def c2App : App := ⟨some (.obj [("a", .num 5)]), some (.obj []), []⟩

/-- The handle `@Global.a.b`, whose root namespace exists. -/
def c2H : Handle := ⟨"global", ["a", "b"]⟩

/-- Witness input for the amended C2: an empty global namespace. -/
def c2wApp : App := ⟨some (.obj []), some (.obj []), []⟩

/-- Witness handle `@Global.a.b`. -/
def c2wH : Handle := ⟨"global", ["a", "b"]⟩

/-- The state after writing 7 at `@Global.a.b` (the intermediate `a` object
is created). -/
def c2wApp2 : App := ⟨some (.obj [("a", .obj [("b", .num 7)])]), some (.obj []), []⟩

/-- A flattened scope with the root handles `Global` and `Url` and no
signature computed yet. -/
def c5Parent : FlatHandles := ⟨["Global", "Url"], none⟩

/-- The flattened view of a child scope adding the alias `Foo`, built after
the parent's signature was computed (so the spread copies the parent's
`_keyCache`). -/
def c5Child : FlatHandles := flattenHandles (handlesKey c5Parent).2 ["Foo"]

/-- `When` or `Loop`: the structural tags the claim lets vary between the
neighbours. -/
def SNode.isCondOrIter : SNode → Bool
  | .whenN _ _ => true
  | .loopN _ _ => true
  | _ => false

/-- `Else` test. -/
def SNode.isElseNode : SNode → Bool
  | .elseN _ _ => true
  | _ => false

/-- An optional next sibling that is not an `Else`. -/
def notElseO : Option SNode → Bool
  | none => true
  | some n => !n.isElseNode

/-- Compatibility of two environment entries: whenever both canonicalize to
the same name, they carry the same value. -/
def CompatPair (p q : String × JSRef) : Prop :=
  ∀ cn, canonOf p.1 = some cn → canonOf q.1 = some cn → p.2 = q.2

/-- The handle shared by both aliases in the C8 counterexample. -/
def c8Handle : Handle := ⟨"global", []⟩

/-- The oracle of the C6 witness: only `a\x7db` compiles. -/
def c6canC : String → Bool := fun s => s == "a\x7db"


-- # Theorems

-- ## Shared association-list lemmas

/-- Setting a key makes it the looked-up value. -/
theorem lookupP_setFieldP_self {α : Type} (fs : List (String × α)) (k : String)
    (v : α) : lookupP k (setFieldP fs k v) = some v := by
  induction fs with
  | nil => simp [setFieldP, lookupP]
  | cons p rest ih =>
    obtain ⟨k2, w⟩ := p
    by_cases hk : k2 = k
    · simp [setFieldP, hk, lookupP]
    · simp [setFieldP, hk, lookupP, ih]

/-- Setting one key leaves other keys alone. -/
theorem lookupP_setFieldP_ne {α : Type} (fs : List (String × α)) (k k2 : String)
    (v : α) (h : k2 ≠ k) : lookupP k2 (setFieldP fs k v) = lookupP k2 fs := by
  induction fs with
  | nil => simp [setFieldP, lookupP, Ne.symm h]
  | cons p rest ih =>
    obtain ⟨k3, w⟩ := p
    by_cases hk : k3 = k
    · subst hk
      simp [setFieldP, lookupP, Ne.symm h]
    · simp [setFieldP, hk, lookupP, ih]

/-- Unfolding one step of the read loop at a non-nullish value. -/
theorem readPath_cons (cur : JVal) (seg : String) (rest : List String)
    (h : cur.isNullish = false) :
    readPath cur (seg :: rest) = readPath (getProp cur seg) rest := by
  simp [readPath, h]

/-- Resolving the namespace just stored answers the stored value. -/
theorem resolveNamespace_setNamespace (app : App) (root : String) (ns : JVal) :
    resolveNamespace (setNamespace app root ns) root = some ns := by
  by_cases hg : root = "global"
  · simp [resolveNamespace, setNamespace, hg]
  · by_cases hu : root = "url"
    · simp [resolveNamespace, setNamespace, hg, hu]
    · simp [resolveNamespace, setNamespace, hg, hu, lookupP_setFieldP_self]

-- ## C1

/-- C1: the `set`-trap half of the claim holds — every property assignment
through a handle proxy in pure mode throws `pureMutationMsg` with the state
untouched — but the purity half fails: the `get` trap returns functions as
`val.bind(base)` with the live namespace object as `this` and no pure-mode
guard on the call, so the pure-mode evaluation of
`\x7b@Global.items.push(1)\x7d` completes without any error and changes the
global namespace (the array at `@Global.items` grows from `[]` to `[1]`). -/
theorem c1_pure_mutation :
    (∀ (app : App) (h : Handle) (prop : String) (v : JVal),
      applyOp .pure app (.set h prop v) = (some pureMutationMsg, app)) ∧
    runOps .pure c1App [.callPush c1H (.num 1)] = (none, c1App2) ∧
    readHandle c1App c1H = .arr [] ∧
    readHandle c1App2 c1H = .arr [.num 1] ∧
    c1App2 ≠ c1App := by
  refine ⟨fun app h prop v => rfl, rfl, rfl, rfl, ?_⟩
  intro h
  have h2 : JVal.arr [JVal.num 1] = JVal.arr [] :=
    congrArg (fun a => readHandle a c1H) h
  injection h2 with h3
  exact List.noConfusion h3

-- ## C10

/-- C10: for a handle whose root is neither `global` nor `url` nor an
existing local namespace key, the read operation returns `undefined`
(and, being total, never throws), while the write operation throws
`Unknown handle root` — in particular it returns no updated state, so no
namespace is created and nothing changes. -/
theorem c10_unknown_root (app : App) (h : Handle) (v : JVal)
    (hg : h.root ≠ "global") (hu : h.root ≠ "url")
    (hl : lookupP h.root app.locals = none) :
    readHandle app h = .undef ∧
      writeHandle app h v = .error ("Unknown handle root " ++ h.root) := by
  have hres : resolveNamespace app h.root = none := by
    simp [resolveNamespace, hg, hu, hl]
  exact ⟨by simp [readHandle, hres], by simp [writeHandle, hres]⟩

/-- Witness for C10 at a concrete unknown root. -/
theorem c10_witness :
    readHandle c10App c10H = .undef ∧
      writeHandle c10App c10H (.num 1) =
        .error ("Unknown handle root " ++ "form") :=
  c10_unknown_root c10App c10H (.num 1) (by decide) (by decide) rfl

-- ## C2

/-- Reading back a path that was just written yields the written value,
for non-empty paths and successful writes. -/
theorem readPath_writePath (path : List String) :
    ∀ (base w v : JVal), path ≠ [] → writePath base path v = .ok w →
      readPath w path = v := by
  induction path with
  | nil => intro _ _ _ hne; exact absurd rfl hne
  | cons seg rest ih =>
    intro base w v _ hw
    cases rest with
    | nil =>
      -- single segment: a direct property store
      rw [show writePath base [seg] v = setProp base seg v from rfl] at hw
      cases base with
      | obj fs =>
        simp only [setProp] at hw
        cases hw
        simp [readPath, JVal.isNullish, getProp, lookupP_setFieldP_self]
      | arr xs =>
        simp only [setProp] at hw
        cases hx : seg.toNat? with
        | none => simp [hx] at hw
        | some i =>
          simp only [hx] at hw
          by_cases hi : i < xs.length
          · rw [if_pos hi] at hw
            cases hw
            simp [readPath, JVal.isNullish, getProp, hx, List.getElem?_set_eq hi]
          · by_cases he : i = xs.length
            · subst he
              rw [if_neg hi, if_pos rfl] at hw
              cases hw
              simp [readPath, JVal.isNullish, getProp, hx, List.getElem?_concat_length]
            · rw [if_neg hi, if_neg he] at hw
              exact absurd hw (by simp)
      | undef => simp [setProp] at hw
      | null => simp [setProp] at hw
      | bool b => simp [setProp] at hw
      | num n => simp [setProp] at hw
      | str sx => simp [setProp] at hw
    | cons seg2 rest2 =>
      -- intermediate segment
      cases base with
      | obj fs =>
        simp only [writePath] at hw
        cases hrec : writePath
            (if (getProp (.obj fs) seg).isNullish then JVal.obj []
              else getProp (.obj fs) seg) (seg2 :: rest2) v with
        | error e => rw [hrec] at hw; exact absurd hw (by simp)
        | ok w0 =>
          rw [hrec] at hw
          simp only [setProp] at hw
          cases hw
          have hread := ih _ _ _ (by simp) hrec
          rw [readPath_cons _ _ _ (by simp [JVal.isNullish])]
          rw [show getProp (JVal.obj (setFieldP fs seg w0)) seg = w0 by
            simp [getProp, lookupP_setFieldP_self]]
          exact hread
      | arr xs =>
        simp only [writePath] at hw
        cases hrec : writePath
            (if (getProp (.arr xs) seg).isNullish then JVal.obj []
              else getProp (.arr xs) seg) (seg2 :: rest2) v with
        | error e => rw [hrec] at hw; exact absurd hw (by simp)
        | ok w0 =>
          rw [hrec] at hw
          simp only [setProp] at hw
          cases hx : seg.toNat? with
          | none => simp [hx] at hw
          | some i =>
            simp only [hx] at hw
            have hread := ih _ _ _ (by simp) hrec
            by_cases hi : i < xs.length
            · rw [if_pos hi] at hw
              cases hw
              rw [readPath_cons _ _ _ (by simp [JVal.isNullish])]
              rw [show getProp (JVal.arr (xs.set i w0)) seg = w0 by
                simp [getProp, hx, List.getElem?_set_eq hi]]
              exact hread
            · by_cases he : i = xs.length
              · subst he
                rw [if_neg hi, if_pos rfl] at hw
                cases hw
                rw [readPath_cons _ _ _ (by simp [JVal.isNullish])]
                rw [show getProp (JVal.arr (xs ++ [w0])) seg = w0 by
                  simp [getProp, hx, List.getElem?_concat_length]]
                exact hread
              · rw [if_neg hi, if_neg he] at hw
                exact absurd hw (by simp)
      | undef => simp [writePath] at hw
      | null => simp [writePath] at hw
      | bool b => simp [writePath] at hw
      | num n => simp [writePath] at hw
      | str sx => simp [writePath] at hw

/-- C2 (amended): for every handle with a non-empty path, whenever the write
operation completes without throwing (its root namespace resolves and every
intermediate value along the path is an object, an array, or nullish — the
nullish ones being replaced by fresh empty objects), an immediate read of the
same handle returns the written value.  The read side follows the path and
returns `undefined` at nullish intermediates by definition of `readPath`. -/
theorem c2_write_then_read (app app2 : App) (h : Handle) (v : JVal)
    (hne : h.path ≠ []) (hw : writeHandle app h v = .ok app2) :
    readHandle app2 h = v := by
  unfold writeHandle at hw
  split at hw
  · exact absurd hw (by simp)
  · rename_i base hres
    split at hw
    · rename_i ns hwp
      cases hw
      unfold readHandle
      rw [resolveNamespace_setNamespace]
      exact readPath_writePath h.path base ns v hne hwp
    · exact absurd hw (by simp)

/-- C2 counterexample: the claim promises that the write assigns the value at
the last segment and that a subsequent read returns it, for every handle
whose root namespace exists.  For `@Global.a.b` over `\x7ba: 5\x7d` the root
exists, yet the write throws (the intermediate segment holds a primitive, and
`'use strict'` property assignment on a primitive is a `TypeError`), so no
write/read round trip exists. -/
theorem c2_counterexample :
    resolveNamespace c2App c2H.root = some (.obj [("a", .num 5)]) ∧
      ¬ ∃ app2, writeHandle c2App c2H (.num 1) = .ok app2 := by
  constructor
  · rfl
  · rintro ⟨app2, hw⟩
    rw [show writeHandle c2App c2H (.num 1) =
      .error "TypeError: cannot set a property of a primitive value" from rfl] at hw
    exact Except.noConfusion hw

/-- Witness for the amended C2 at a concrete write. -/
theorem c2_witness :
    writeHandle c2wApp c2wH (.num 7) = .ok c2wApp2 ∧
      readHandle c2wApp2 c2wH = .num 7 :=
  ⟨rfl, c2_write_then_read c2wApp c2wApp2 c2wH (.num 7) (by decide) rfl⟩


-- ## C4

/-- C4: the rendered SID of an element carrying an explicit
`marker="m"` attribute, sitting at source index 0 below a parent with SID
`R`, is `R/0`: the segment is the bare source index — `renderChildren`
passes `String(i)` and `renderElement` feeds it unchanged to `makeSid` —
so neither the claimed marker segment (`R/m`) nor the claimed `TAG#INDEX`
segment (`R/DIV#0`) is produced.  The `marker` attribute is skipped by
`renderAttributes` and read nowhere else. -/
theorem c4_marker_ignored :
    renderSibs 10 "R" [.elem "div" (some "m") none []] 0 none =
      .ok [[.node "div" "R/0" []]] ∧
    ("R/0" : String) ≠ "R/m" ∧ ("R/0" : String) ≠ "R/DIV#0" :=
  ⟨rfl, by decide, by decide⟩

-- ## C7

/-- C7: a `<Loop>` rendering one row followed by `<Else>` still renders the
`<Else>` children — when the sibling walk reaches the `<Else>`, the Loop has
reset the `whenContext` to null, `renderWhen` manufactures a fresh
unmatched context, and an `<Else>` without `test` always matches.  With
zero rows the `<Else>` children render twice: once as the Loop's fallback
(SID `R/0-else`) and once more as the orphan sibling (SID `R/1`). -/
theorem c7_else_spurious_render :
    (renderSibs 10 "R"
        [.loopN [.num 1] [.text "row"], .elseN none [.text "empty"]] 0 none =
      .ok [[.text "row"], [.node "div" "R/1" [.text "empty"]]]) ∧
    (renderSibs 10 "R"
        [.loopN [] [.text "row"], .elseN none [.text "empty"]] 0 none =
      .ok [[.node "div" "R/0-else" [.text "empty"]],
        [.node "div" "R/1" [.text "empty"]]]) :=
  ⟨rfl, rfl⟩

-- ## C5

/-- C5: the handle signature is not always built from the handle-alias
names visible in the flattened scope.  Computing the parent scope's
signature stores `_keyCache` on the parent's flat handles object; the child
scope's flatten spreads that property into the child's flat object, so the
child — whose visible aliases are `Global`, `Url`, `Foo` and whose
name-derived signature would be `FOO,GLOBAL,URL` — answers the stale
signature `GLOBAL,URL`.  Consequently `compileExpr` on `@Foo.x` in the
child scope hits the cache entry compiled for the parent scope (where `Foo`
was not a known handle): the compile counter stays at 1 and the same
compiled function is returned. -/
theorem c5_stale_signature :
    (handlesKey c5Parent).1 = "GLOBAL,URL" ∧
    c5Child.names = ["Global", "Url", "Foo"] ∧
    handlesKeyCompute c5Child.names = "FOO,GLOBAL,URL" ∧
    (handlesKey c5Child).1 = "GLOBAL,URL" ∧
    ((compileExpr "@Foo.x" c5Child
        (compileExpr "@Foo.x" (handlesKey c5Parent).2 ⟨[], 0⟩).2.2).2.2.compiled = 1 ∧
      (compileExpr "@Foo.x" c5Child
        (compileExpr "@Foo.x" (handlesKey c5Parent).2 ⟨[], 0⟩).2.2).1 =
        (compileExpr "@Foo.x" (handlesKey c5Parent).2 ⟨[], 0⟩).1) :=
  ⟨rfl, by decide, by decide, rfl, by decide, by decide⟩

-- ## C3


/-- `renderNode` consults the next element sibling only in the `Loop`
zero-output fallback, and only to check whether it is an `Else`: replacing
the next sibling by any other non-`Else` value (or none) leaves the result
unchanged. -/
theorem renderNodeS_next_irrel (fuel : Nat) (n : SNode) (p s : String)
    (ctx : Option Bool) (next1 next2 : Option SNode)
    (h1 : notElseO next1 = true) (h2 : notElseO next2 = true) :
    renderNodeS fuel n p s ctx next1 = renderNodeS fuel n p s ctx next2 := by
  cases fuel with
  | zero => rfl
  | succ fuel =>
    cases n with
    | text s2 => rfl
    | elem tag marker test children => rfl
    | whenN t ch => rfl
    | elseN t ch => rfl
    | loopN rows ch =>
      simp only [renderNodeS]
      cases hr : renderRows fuel rows ch [] (makeSid p ("LOOP" ++ s) none) s with
      | error e => rfl
      | ok rendered =>
        by_cases he : rendered.isEmpty
        · simp only [he, if_true, if_pos]
          cases next1 with
          | none =>
            cases next2 with
            | none => rfl
            | some m2 => cases m2 <;> simp_all [notElseO, SNode.isElseNode]
          | some m1 =>
            cases next2 with
            | none => cases m1 <;> simp_all [notElseO, SNode.isElseNode]
            | some m2 =>
              cases m1 <;> cases m2 <;> simp_all [notElseO, SNode.isElseNode]
        · simp only [he, if_false, Bool.false_eq_true]

/-- The output chunk a non-`Else` sibling contributes does not depend on the
incoming `whenContext`: elements and loops reset it, a `When` starts a fresh
context, and a text node renders independently of it. -/
theorem renderNodeS_ctx_chunk (fuel : Nat) (n : SNode) (p s : String)
    (ctx1 ctx2 : Option Bool) (next : Option SNode)
    (hn : n.isElseNode = false) :
    (renderNodeS fuel n p s (ctxReset n ctx1) next).map Prod.fst =
      (renderNodeS fuel n p s (ctxReset n ctx2) next).map Prod.fst := by
  cases fuel with
  | zero => rfl
  | succ fuel =>
    cases n with
    | text s2 => rfl
    | elem tag marker test children => rfl
    | whenN t ch => rfl
    | elseN t ch => simp [SNode.isElseNode] at hn
    | loopN rows ch => rfl

/-- C3: for a parent whose children are `[A, B, C]` with `B` a conditional
(`<When>`) or an iteration (`<Loop>`) and `C` not an `<Else>` of `B`'s
chain, the rendered chunks of `A` and of `C` — including every SID they
carry — are the same whichever branch `B` takes and however many rows it
produces: each sibling's SID segment is its source index, so `B`'s
behaviour cannot move its neighbours. -/
theorem c3_sid_neighbor_stability (fuel : Nat) (parentSid : String)
    (a b1 b2 c : SNode) (out1 out2 : List (List RNode))
    (hb1 : b1.isCondOrIter = true) (hb2 : b2.isCondOrIter = true)
    (hc : c.isElseNode = false)
    (h1 : renderSibs fuel parentSid [a, b1, c] 0 none = .ok out1)
    (h2 : renderSibs fuel parentSid [a, b2, c] 0 none = .ok out2) :
    out1.head? = out2.head? ∧ out1.get? 2 = out2.get? 2 := by
  have hne1 : notElseO (some b1) = true := by
    cases b1 <;> simp_all [SNode.isCondOrIter, notElseO, SNode.isElseNode]
  have hne2 : notElseO (some b2) = true := by
    cases b2 <;> simp_all [SNode.isCondOrIter, notElseO, SNode.isElseNode]
  have hf1 : firstElem [b1, c] = some b1 := by
    cases b1 <;> simp_all [SNode.isCondOrIter, firstElem]
  have hf2 : firstElem [b2, c] = some b2 := by
    cases b2 <;> simp_all [SNode.isCondOrIter, firstElem]
  cases fuel with
  | zero => exact absurd h1 (by simp [renderSibs])
  | succ f1 =>
    simp only [renderSibs, hf1, hf2] at h1 h2
    rw [renderNodeS_next_irrel f1 a parentSid (toString 0) (ctxReset a none)
      (some b1) (some b2) hne1 hne2] at h1
    cases hEa : renderNodeS f1 a parentSid (toString 0) (ctxReset a none)
        (some b2) with
    | error e => simp [hEa] at h1
    | ok pa =>
      obtain ⟨outA, ctxA⟩ := pa
      simp only [hEa] at h1 h2
      cases f1 with
      | zero => simp [renderSibs] at h1
      | succ f2 =>
        simp only [renderSibs] at h1 h2
        cases hEb1 : renderNodeS f2 b1 parentSid (toString 1)
            (ctxReset b1 ctxA) (firstElem [c]) with
        | error e => simp [hEb1] at h1
        | ok pb1 =>
          obtain ⟨outB1, ctxB1⟩ := pb1
          cases hEb2 : renderNodeS f2 b2 parentSid (toString 1)
              (ctxReset b2 ctxA) (firstElem [c]) with
          | error e => simp [hEb2] at h2
          | ok pb2 =>
            obtain ⟨outB2, ctxB2⟩ := pb2
            simp only [hEb1] at h1
            simp only [hEb2] at h2
            cases f2 with
            | zero => simp [renderSibs] at h1
            | succ f3 =>
              simp only [renderSibs] at h1 h2
              have hchunk := renderNodeS_ctx_chunk f3 c parentSid (toString 2)
                ctxB1 ctxB2 (firstElem ([] : List SNode)) hc
              cases hEc1 : renderNodeS f3 c parentSid (toString 2)
                  (ctxReset c ctxB1) (firstElem ([] : List SNode)) with
              | error e => simp [hEc1] at h1
              | ok pc1 =>
                obtain ⟨outC1, ctxC1⟩ := pc1
                cases hEc2 : renderNodeS f3 c parentSid (toString 2)
                    (ctxReset c ctxB2) (firstElem ([] : List SNode)) with
                | error e => simp [hEc1, hEc2, Except.map] at hchunk
                | ok pc2 =>
                  obtain ⟨outC2, ctxC2⟩ := pc2
                  simp only [hEc1, hEc2, Except.map] at hchunk
                  have houtC : outC1 = outC2 := by
                    simpa using hchunk
                  simp only [hEc1] at h1
                  simp only [hEc2] at h2
                  cases f3 with
                  | zero => simp [renderSibs] at h1
                  | succ f4 =>
                    simp only [renderSibs] at h1 h2
                    cases h1
                    cases h2
                    simp [houtC]


-- ## C8

/-- Strict equality in this model is plain equality (no `NaN` inhabits the
primitive type). -/
theorem strictEq_iff_eq (a b : JSRef) : strictEq a b = true ↔ a = b := by
  cases a <;> cases b <;> simp [strictEq]

/-- A successful lookup is a membership. -/
theorem lookupP_mem {α : Type} {l : List (String × α)} {k : String} {v : α}
    (h : lookupP k l = some v) : (k, v) ∈ l := by
  induction l with
  | nil => simp [lookupP] at h
  | cons p rest ih =>
    obtain ⟨k2, w⟩ := p
    by_cases hk : k2 = k
    · subst hk
      have h2 : some w = some v := by simpa [lookupP] using h
      cases h2
      simp
    · simp only [lookupP, if_neg hk] at h
      simp [ih h]

/-- A failed lookup excludes every membership at that key. -/
theorem lookupP_none_not_mem {α : Type} {l : List (String × α)} {k : String}
    (h : lookupP k l = none) (v : α) : (k, v) ∉ l := by
  induction l with
  | nil => simp
  | cons p rest ih =>
    obtain ⟨k2, w⟩ := p
    by_cases hk : k2 = k
    · subst hk
      simp [lookupP] at h
    · simp only [lookupP, if_neg hk] at h
      simp only [List.mem_cons, not_or]
      constructor
      · intro hh
        exact hk (congrArg Prod.fst hh).symm
      · exact ih h

/-- With distinct keys, membership determines the lookup. -/
theorem lookupP_of_mem_nodup {α : Type} {l : List (String × α)} {k : String}
    {v : α} (hnd : (l.map Prod.fst).Nodup) (h : (k, v) ∈ l) :
    lookupP k l = some v := by
  induction l with
  | nil => simp at h
  | cons p rest ih =>
    obtain ⟨k2, w⟩ := p
    simp only [List.map_cons, List.nodup_cons] at hnd
    rcases List.mem_cons.mp h with heq | hmem
    · cases heq
      simp [lookupP]
    · by_cases hk : k2 = k
      · subst hk
        exact absurd (List.mem_map_of_mem Prod.fst hmem) hnd.1
      · simp only [lookupP, if_neg hk]
        exact ih hnd.2 hmem

/-- A successful `_canonicalCI` fold implies pairwise compatibility of the
environment entries (and of the accumulator with the remaining entries). -/
theorem canonicalCIAux_ok_pairwise :
    ∀ (l acc r : List (String × JSRef)), (acc.map Prod.fst).Nodup →
      canonicalCIAux acc l = .ok r →
      l.Pairwise CompatPair ∧
        (∀ p ∈ acc, ∀ q ∈ l, canonOf q.1 = some p.1 → p.2 = q.2) := by
  intro l
  induction l with
  | nil =>
    intro acc r _ _
    exact ⟨List.Pairwise.nil, by simp⟩
  | cons e rest ih =>
    intro acc r hnd h
    obtain ⟨k, v⟩ := e
    simp only [canonicalCIAux] at h
    cases hc : canonOf k with
    | none =>
      simp only [hc] at h
      obtain ⟨hpw, hacc⟩ := ih acc r hnd h
      refine ⟨List.Pairwise.cons ?_ hpw, ?_⟩
      · intro q _ cn hk _
        rw [show ((k, v) : String × JSRef).1 = k from rfl, hc] at hk
        exact absurd hk (by simp)
      · intro p hp q hq hcq
        rcases List.mem_cons.mp hq with heq | hmem
        · subst heq
          rw [show ((k, v) : String × JSRef).1 = k from rfl, hc] at hcq
          exact absurd hcq (by simp)
        · exact hacc p hp q hmem hcq
    | some cn =>
      simp only [hc] at h
      cases hl : lookupP cn acc with
      | some w =>
        simp only [hl] at h
        by_cases hse : strictEq w v = true
        · simp only [if_pos hse] at h
          obtain ⟨hpw, hacc⟩ := ih acc r hnd h
          have hwv : w = v := (strictEq_iff_eq w v).mp hse
          refine ⟨List.Pairwise.cons ?_ hpw, ?_⟩
          · intro q hq cn2 hk hkq
            rw [show ((k, v) : String × JSRef).1 = k from rfl, hc] at hk
            cases hk
            have h2 := hacc (cn, w) (lookupP_mem hl) q hq hkq
            rw [show ((k, v) : String × JSRef).2 = v from rfl]
            rw [← h2, hwv]
          · intro p hp q hq hcq
            rcases List.mem_cons.mp hq with heq | hmem
            · subst heq
              rw [show ((k, v) : String × JSRef).1 = k from rfl, hc] at hcq
              cases hcq
              have hpl : lookupP p.1 acc = some p.2 := lookupP_of_mem_nodup hnd (by simpa using hp)
              rw [hl] at hpl
              cases hpl
              exact hwv
            · exact hacc p hp q hmem hcq
        · simp only [if_neg hse] at h
          exact absurd h (by simp)
      | none =>
        simp only [hl] at h
        have hnd2 : ((acc ++ [(cn, v)]).map Prod.fst).Nodup := by
          rw [List.map_append]
          refine List.Nodup.append hnd (by simp) ?_
          intro x hx hy
          simp only [List.map_cons, List.map_nil, List.mem_singleton] at hy
          subst hy
          obtain ⟨⟨k2, w2⟩, hm, hfst⟩ := List.mem_map.mp hx
          simp only at hfst
          subst hfst
          exact lookupP_none_not_mem hl w2 hm
        obtain ⟨hpw, hacc⟩ := ih (acc ++ [(cn, v)]) r hnd2 h
        refine ⟨List.Pairwise.cons ?_ hpw, ?_⟩
        · intro q hq cn2 hk hkq
          rw [show ((k, v) : String × JSRef).1 = k from rfl, hc] at hk
          cases hk
          exact hacc (cn, v) (by simp) q hq hkq
        · intro p hp q hq hcq
          rcases List.mem_cons.mp hq with heq | hmem
          · subst heq
            rw [show ((k, v) : String × JSRef).1 = k from rfl, hc] at hcq
            cases hcq
            have := lookupP_none_not_mem hl p.2
            exact absurd (by simpa using hp) this
          · exact hacc p (by simp [hp]) q hmem hcq

/-- Compatibility lets the `_canonicalCI` fold run to completion. -/
theorem canonicalCIAux_ok_of_compat :
    ∀ (l acc : List (String × JSRef)), (acc.map Prod.fst).Nodup →
      l.Pairwise CompatPair →
      (∀ p ∈ acc, ∀ q ∈ l, canonOf q.1 = some p.1 → p.2 = q.2) →
      ∃ r, canonicalCIAux acc l = .ok r := by
  intro l
  induction l with
  | nil =>
    intro acc _ _ _
    exact ⟨acc, rfl⟩
  | cons e rest ih =>
    intro acc hnd hpw hacc
    obtain ⟨k, v⟩ := e
    obtain ⟨hhead, hrest⟩ := List.pairwise_cons.mp hpw
    simp only [canonicalCIAux]
    cases hc : canonOf k with
    | none =>
      simp only [hc]
      exact ih acc hnd hrest
        (fun p hp q hq hcq => hacc p hp q (List.mem_cons_of_mem _ hq) hcq)
    | some cn =>
      simp only [hc]
      cases hl : lookupP cn acc with
      | some w =>
        simp only [hl]
        have hw : w = v := by
          have hmem := lookupP_mem hl
          exact hacc (cn, w) hmem (k, v) (by simp) (by simpa using hc)
        have hse : strictEq w v = true := (strictEq_iff_eq w v).mpr hw
        rw [if_pos hse]
        exact ih acc hnd hrest
          (fun p hp q hq hcq => hacc p hp q (List.mem_cons_of_mem _ hq) hcq)
      | none =>
        simp only [hl]
        have hnd2 : ((acc ++ [(cn, v)]).map Prod.fst).Nodup := by
          rw [List.map_append]
          refine List.Nodup.append hnd (by simp) ?_
          intro x hx hy
          simp only [List.map_cons, List.map_nil, List.mem_singleton] at hy
          subst hy
          obtain ⟨⟨k2, w2⟩, hm, hfst⟩ := List.mem_map.mp hx
          simp only at hfst
          subst hfst
          exact lookupP_none_not_mem hl w2 hm
        refine ih (acc ++ [(cn, v)]) hnd2 hrest ?_
        intro p hp q hq hcq
        rcases List.mem_append.mp hp with hpacc | hpnew
        · exact hacc p hpacc q (List.mem_cons_of_mem _ hq) hcq
        · simp only [List.mem_singleton] at hpnew
          subst hpnew
          exact hhead q hq cn hc (by simpa using hcq)

/-- `buildEnv` allocates proxy ids sequentially across an append. -/
theorem buildHandleParams_append (xs ys : List (String × Handle)) (n : Nat) :
    buildHandleParams (xs ++ ys) n =
      buildHandleParams xs n ++ buildHandleParams ys (n + xs.length) := by
  induction xs generalizing n with
  | nil => simp [buildHandleParams]
  | cons p rest ih =>
    obtain ⟨k, hh⟩ := p
    simp [buildHandleParams, ih, Nat.add_comm, Nat.add_assoc, Nat.add_left_comm]

/-- The canonical form of a handle parameter name. -/
theorem canonOf_handleParam (k : String) :
    canonOf ("$H$" ++ k) = some ("$H$" ++ upperStr k) := by
  have hdata : ("$H$" ++ k).data = '$' :: 'H' :: '$' :: k.data := rfl
  simp only [canonOf, hdata]
  rw [if_pos trivial]
  refine congrArg some (String.ext ?_)
  show '$' :: ('H' :: '$' :: k.data).map Char.toUpper =
    ("$H$" ++ upperStr k).data
  have hdata2 : ("$H$" ++ upperStr k).data =
      '$' :: 'H' :: '$' :: k.data.map Char.toUpper := rfl
  rw [hdata2]
  simp

/-- Two entries at distinct positions of a pairwise list are related. -/
theorem pairwise_extract {α : Type} {R : α → α → Prop} (A B C : List α)
    (x y : α) (h : (A ++ (x :: (B ++ (y :: C)))).Pairwise R) : R x y := by
  have hs1 : [x, y].Sublist (x :: (B ++ y :: C)) :=
    List.Sublist.cons₂ x (List.singleton_sublist.mpr (by simp))
  have hs2 : (x :: (B ++ y :: C)).Sublist (A ++ (x :: (B ++ (y :: C)))) :=
    List.sublist_append_right A _
  have hp : [x, y].Pairwise R := List.Pairwise.sublist (hs1.trans hs2) h
  exact (List.pairwise_cons.mp hp).1 y (by simp)

/-- C8 (amended): when an evaluation environment is built, two handle
aliased parameters whose names fold case-insensitively to the same
canonical name make the evaluation throw unconditionally — `buildEnv` wraps
every alias in a freshly allocated proxy, so the compared referents are
never strictly equal, even when both aliases name the same handle.  For
`$`-value entries the strict-equality rule of the claim does hold:
with no handle entries, evaluation proceeds without error exactly when all
case-folding collisions bind strictly equal values. -/
theorem c8_collision_behavior :
    (∀ (values : List (String × JSRef)) (pre mid post : List (String × Handle))
       (k1 k2 : String) (g1 g2 : Handle) (n : Nat),
       upperStr k1 = upperStr k2 →
       ¬ ∃ r, canonicalCI
           (buildEnv values (pre ++ (k1, g1) :: mid ++ (k2, g2) :: post) n) =
           .ok r) ∧
    (∀ (values : List (String × JSRef)) (n : Nat),
       (∃ r, canonicalCI (buildEnv values [] n) = .ok r) ↔
         values.Pairwise CompatPair) := by
  constructor
  · rintro values pre mid post k1 k2 g1 g2 n hupper ⟨r, hok⟩
    have hpw := (canonicalCIAux_ok_pairwise _ [] r (by simp) hok).1
    unfold buildEnv at hpw
    have hpw2 := (List.pairwise_append.mp hpw).2.1
    have heq : buildHandleParams (pre ++ (k1, g1) :: mid ++ (k2, g2) :: post) n =
        buildHandleParams pre n ++
          (("$H$" ++ k1, JSRef.ref (n + pre.length)) ::
            (buildHandleParams mid (n + pre.length + 1) ++
              (("$H$" ++ k2, JSRef.ref (n + pre.length + 1 + mid.length)) ::
                buildHandleParams post (n + pre.length + 1 + mid.length + 1)))) := by
      rw [buildHandleParams_append]
      simp only [buildHandleParams]
      rw [buildHandleParams_append]
      simp only [buildHandleParams, List.append_assoc, List.cons_append]
      simp [List.length_append, List.length_cons, Nat.add_assoc, Nat.add_comm, Nat.add_left_comm]
    rw [heq] at hpw2
    have hrel := pairwise_extract _ _ _ _ _ hpw2
    have h2 : canonOf ("$H$" ++ k2) = some ("$H$" ++ upperStr k1) := by
      rw [canonOf_handleParam k2, hupper]
    have := hrel ("$H$" ++ upperStr k1) (canonOf_handleParam k1) h2
    simp only [JSRef.ref.injEq] at this
    omega
  · intro values n
    constructor
    · rintro ⟨r, hok⟩
      have henv : buildEnv values [] n = values := by
        simp [buildEnv, buildHandleParams]
      rw [henv] at hok
      exact (canonicalCIAux_ok_pairwise _ [] r (by simp) hok).1
    · intro hpw
      obtain ⟨r, hr⟩ := canonicalCIAux_ok_of_compat values [] (by simp) hpw
        (by simp)
      refine ⟨r, ?_⟩
      have henv : buildEnv values [] n = values := by
        simp [buildEnv, buildHandleParams]
      rw [henv]
      exact hr

/-- C8 counterexample: the aliases `Foo` and `foo` refer to the very same
handle — their referents are strictly equal — yet building the environment
and canonicalizing throws the conflict error, because each alias received a
fresh proxy object. -/
theorem c8_counterexample :
    canonicalCI (buildEnv [] [("Foo", c8Handle), ("foo", c8Handle)] 0) =
      .error "Conflicting values for case-insensitive identifier \"$H$FOO\"." := rfl

/-- Witness for the amended C8: the collision branch at two same-handle
aliases, and the no-error branch at two strictly equal `$`-values. -/
theorem c8_witness :
    (¬ ∃ r, canonicalCI
        (buildEnv [] ([] ++ ("Foo", c8Handle) :: [] ++ ("foo", c8Handle) :: []) 0) =
        .ok r) ∧
    (∃ r, canonicalCI
        (buildEnv [("$x", .prim (.num 1)), ("$X", .prim (.num 1))] [] 0) =
        .ok r) := by
  constructor
  · exact c8_collision_behavior.1 [] [] [] [] "Foo" "foo" c8Handle c8Handle 0
      (by decide)
  · refine (c8_collision_behavior.2 _ 0).mpr ?_
    refine List.Pairwise.cons ?_ (List.Pairwise.cons (by simp) List.Pairwise.nil)
    intro q hq cn _ _
    simp only [List.mem_singleton] at hq
    subst hq
    rfl


/-- Witness for C3: a `When` between two elements, taking either branch. -/
theorem c3_witness :
    ([[RNode.node "a" "R/0" []], [RNode.node "div" "R/1" [RNode.text "T"]],
        [RNode.node "b" "R/2" []]] : List (List RNode)).head? =
      ([[RNode.node "a" "R/0" []], [],
        [RNode.node "b" "R/2" []]] : List (List RNode)).head? ∧
    ([[RNode.node "a" "R/0" []], [RNode.node "div" "R/1" [RNode.text "T"]],
        [RNode.node "b" "R/2" []]] : List (List RNode)).get? 2 =
      ([[RNode.node "a" "R/0" []], [],
        [RNode.node "b" "R/2" []]] : List (List RNode)).get? 2 :=
  c3_sid_neighbor_stability 10 "R" (.elem "a" none none [])
    (.whenN (some true) [.text "T"]) (.whenN (some false) [.text "T"])
    (.elem "b" none none []) _ _ rfl rfl rfl rfl rfl

-- ## C6

/-- Characterization of a successful first-that-compiles scan: the accepted
body is the candidate at some closing brace, it compiles, and every earlier
closing-brace candidate fails to compile. -/
theorem firstCompilable_some (canC : String → Bool) :
    ∀ (cs acc : List Char) (b : String) (after : List Char),
      firstCompilable canC acc cs = some (b, after) →
      ∃ pre, cs = pre ++ rbrace :: after ∧
        b = trimStr (String.mk (acc.reverse ++ pre)) ∧ canC b = true ∧
        ∀ pre2 after2, cs = pre2 ++ rbrace :: after2 →
          pre2.length < pre.length →
          canC (trimStr (String.mk (acc.reverse ++ pre2))) = false := by
  intro cs
  induction cs with
  | nil => intro acc b after h; simp [firstCompilable] at h
  | cons c rest ih =>
    intro acc b after h
    simp only [firstCompilable] at h
    by_cases hc : c = rbrace
    · rw [if_pos hc] at h
      by_cases hcc : canC (trimStr (String.mk acc.reverse)) = true
      · rw [if_pos hcc] at h
        simp only [Option.some.injEq, Prod.mk.injEq] at h
        obtain ⟨hb, hafter⟩ := h
        subst hb; subst hafter
        refine ⟨[], by simp [hc], by simp, by simpa using hcc, ?_⟩
        intro pre2 after2 _ hlen
        simp at hlen
      · rw [if_neg hcc] at h
        obtain ⟨pre1, heq, hb, hcanc, hmin⟩ := ih (c :: acc) b after h
        refine ⟨c :: pre1, by simp [heq], ?_, hcanc, ?_⟩
        · rw [hb]
          simp
        · intro pre2 after2 hsplit hlen
          cases pre2 with
          | nil =>
            simp only [List.nil_append, List.cons.injEq] at hsplit
            have : rest = pre1 ++ rbrace :: after := heq
            rw [hsplit.2] at this
            have hccf : canC (trimStr (String.mk acc.reverse)) = false := by
              cases hv : canC (trimStr (String.mk acc.reverse)) with
              | true => exact absurd hv hcc
              | false => rfl
            simpa using hccf
          | cons c2 pre2t =>
            simp only [List.cons_append, List.cons.injEq] at hsplit
            obtain ⟨hc2, hrest⟩ := hsplit
            have := hmin pre2t after2 hrest (by simpa using hlen)
            simpa [hc2] using this
    · rw [if_neg hc] at h
      obtain ⟨pre1, heq, hb, hcanc, hmin⟩ := ih (c :: acc) b after h
      refine ⟨c :: pre1, by simp [heq], ?_, hcanc, ?_⟩
      · rw [hb]
        simp
      · intro pre2 after2 hsplit hlen
        cases pre2 with
        | nil =>
          simp only [List.nil_append, List.cons.injEq] at hsplit
          exact absurd hsplit.1 hc
        | cons c2 pre2t =>
          simp only [List.cons_append, List.cons.injEq] at hsplit
          obtain ⟨hc2, hrest⟩ := hsplit
          have := hmin pre2t after2 hrest (by simpa using hlen)
          simpa [hc2] using this

/-- Characterization of a failed scan: every closing-brace candidate fails
to compile. -/
theorem firstCompilable_none (canC : String → Bool) :
    ∀ (cs acc : List Char), firstCompilable canC acc cs = none →
      ∀ pre after, cs = pre ++ rbrace :: after →
        canC (trimStr (String.mk (acc.reverse ++ pre))) = false := by
  intro cs
  induction cs with
  | nil =>
    intro acc _ pre after hsplit
    exact absurd hsplit.symm (by simp)
  | cons c rest ih =>
    intro acc h pre after hsplit
    simp only [firstCompilable] at h
    by_cases hc : c = rbrace
    · rw [if_pos hc] at h
      by_cases hcc : canC (trimStr (String.mk acc.reverse)) = true
      · rw [if_pos hcc] at h
        exact absurd h (by simp)
      · rw [if_neg hcc] at h
        cases pre with
        | nil =>
          have hccf : canC (trimStr (String.mk acc.reverse)) = false := by
            cases hv : canC (trimStr (String.mk acc.reverse)) with
            | true => exact absurd hv hcc
            | false => rfl
          simpa using hccf
        | cons c2 pre2 =>
          simp only [List.cons_append, List.cons.injEq] at hsplit
          have := ih (c :: acc) h pre2 after hsplit.2
          simpa [hsplit.1] using this
    · rw [if_neg hc] at h
      cases pre with
      | nil =>
        simp only [List.nil_append, List.cons.injEq] at hsplit
        exact absurd hsplit.1 hc
      | cons c2 pre2 =>
        simp only [List.cons_append, List.cons.injEq] at hsplit
        have := ih (c :: acc) h pre2 after hsplit.2
        simpa [hsplit.1] using this

/-- C6: from each `{`, the parser tries each subsequent `}` in source order,
testing whether the candidate body (trimmed) compiles under the current
scope, and accepts the first body that compiles as an expression segment
(resuming after its `}`); if no closing `}` yields a compilable body, the
`{` is emitted as a one-character literal segment and scanning resumes
right after it. -/
theorem c6_first_that_compiles (canC : String → Bool) (cs : List Char) :
    (∀ b after, firstCompilable canC [] cs = some (b, after) →
      ∃ pre, cs = pre ++ rbrace :: after ∧
        b = trimStr (String.mk pre) ∧ canC b = true ∧
        ∀ pre2 after2, cs = pre2 ++ rbrace :: after2 →
          pre2.length < pre.length → canC (trimStr (String.mk pre2)) = false) ∧
    (firstCompilable canC [] cs = none →
      ∀ pre after, cs = pre ++ rbrace :: after →
        canC (trimStr (String.mk pre)) = false) ∧
    (parseInterp canC (lbrace :: cs) =
      match firstCompilable canC [] cs with
      | some (body, after) => Seg.expr body :: parseInterp canC after
      | none => Seg.lit (String.singleton lbrace) :: parseInterp canC cs) := by
  refine ⟨?_, ?_, ?_⟩
  · intro b after h
    have := firstCompilable_some canC cs [] b after h
    simpa using this
  · intro h pre after hsplit
    have := firstCompilable_none canC cs [] h pre after hsplit
    simpa using this
  · rw [parseInterp]
    have ht : (lbrace :: cs).takeWhile (fun c => c ≠ lbrace) = [] := by
      simp [List.takeWhile_cons]
    have hd : (lbrace :: cs).dropWhile (fun c => c ≠ lbrace) = lbrace :: cs := by
      simp [List.dropWhile_cons]
    split
    · next hr =>
      rw [hd] at hr
      exact absurd hr (by simp)
    · next head r hr =>
      rw [hd] at hr
      injection hr with hh hr2
      subst hr2
      rw [ht]
      simp only [List.isEmpty_nil, if_true]
      split
      · next body after hf => rw [hf]
      · next hf => rw [hf]

/-- Witness for C6: scanning `a\x7db\x7dc` with an oracle that accepts only
`a\x7db`, the first closing brace's candidate fails and the second is
accepted; the interpolation parser emits the expression segment and
continues after it. -/
theorem c6_witness :
    (∃ pre, ("a\x7db\x7dc".data : List Char) = pre ++ rbrace :: "c".data ∧
      ("a\x7db" : String) = trimStr (String.mk pre) ∧ c6canC "a\x7db" = true ∧
      ∀ pre2 after2, ("a\x7db\x7dc".data : List Char) = pre2 ++ rbrace :: after2 →
        pre2.length < pre.length → c6canC (trimStr (String.mk pre2)) = false) ∧
    parseInterp c6canC (lbrace :: "a\x7db\x7dc".data) =
      [Seg.expr "a\x7db", Seg.lit "c"] := by
  constructor
  · exact (c6_first_that_compiles c6canC ("a\x7db\x7dc".data)).1 "a\x7db" "c".data rfl
  · rw [(c6_first_that_compiles c6canC ("a\x7db\x7dc".data)).2.2]
    have hf : firstCompilable c6canC [] ("a\x7db\x7dc".data) =
        some ("a\x7db", "c".data) := rfl
    rw [hf]
    have hp : parseInterp c6canC ("c".data) = [Seg.lit "c"] := by
      rw [parseInterp]
      split
      · next hr => rfl
      · next head r hr =>
        have h2 : ([] : List Char) = head :: r := hr
        exact absurd h2 (by simp)
    show Seg.expr "a\x7db" :: parseInterp c6canC ("c".data) =
      [Seg.expr "a\x7db", Seg.lit "c"]
    rw [hp]

-- ## C9: UTF-8 and percent-encoding round trips

theorem char_toNat_lt (c : Char) : c.toNat < 1114112 := by
  have e : c.toNat = c.val.toNat := rfl
  rcases c.valid with h | h
  · omega
  · omega

theorem utf8Enc_bytes_lt {n : Nat} (hn : n < 1114112) :
    ∀ b ∈ utf8Enc n, b < 256 := by
  intro b hb
  rw [utf8Enc] at hb
  by_cases h1 : n < 128
  · rw [if_pos h1] at hb; simp at hb; omega
  · rw [if_neg h1] at hb
    by_cases h2 : n < 2048
    · rw [if_pos h2] at hb; simp at hb; rcases hb with h | h <;> omega
    · rw [if_neg h2] at hb
      by_cases h3 : n < 65536
      · rw [if_pos h3] at hb; simp at hb
        rcases hb with h | h | h <;> omega
      · rw [if_neg h3] at hb; simp at hb
        rcases hb with h | h | h | h <;> omega

theorem utf8DecAll_enc_cons (c : Char) (bs : List Nat) :
    utf8DecAll (utf8Enc c.toNat ++ bs) =
      (utf8DecAll bs).map (fun cs => c :: cs) := by
  have hv : Nat.isValidChar c.toNat := c.valid
  have hlt : c.toNat < 1114112 := char_toNat_lt c
  by_cases h1 : c.toNat < 128
  · have he : utf8Enc c.toNat = [c.toNat] := by rw [utf8Enc, if_pos h1]
    rw [he]
    simp only [List.cons_append, List.nil_append]
    rw [utf8DecAll, if_pos h1, if_pos hv, Char.ofNat_toNat]
  · by_cases h2 : c.toNat < 2048
    · have he : utf8Enc c.toNat =
          [192 + c.toNat / 64, 128 + c.toNat % 64] := by
        rw [utf8Enc, if_neg h1, if_pos h2]
      rw [he]
      simp only [List.cons_append, List.nil_append]
      rw [utf8DecAll, if_neg (by omega), if_neg (by omega), if_pos (by omega)]
      rw [utf8Dec1, if_pos (by constructor <;> omega)]
      have harith : (192 + c.toNat / 64 - 192) * 64 + (128 + c.toNat % 64 - 128) =
          c.toNat := by omega
      rw [harith, if_pos hv, Char.ofNat_toNat]
    · by_cases h3 : c.toNat < 65536
      · have he : utf8Enc c.toNat =
            [224 + c.toNat / 4096, 128 + c.toNat / 64 % 64, 128 + c.toNat % 64] := by
          rw [utf8Enc, if_neg h1, if_neg h2, if_pos h3]
        rw [he]
        simp only [List.cons_append, List.nil_append]
        rw [utf8DecAll, if_neg (by omega), if_neg (by omega), if_neg (by omega),
          if_pos (by omega)]
        rw [utf8Dec2, if_pos (by constructor <;> omega)]
        rw [utf8Dec1, if_pos (by constructor <;> omega)]
        have harith : ((224 + c.toNat / 4096 - 224) * 64 +
            (128 + c.toNat / 64 % 64 - 128)) * 64 + (128 + c.toNat % 64 - 128) =
            c.toNat := by omega
        rw [harith, if_pos hv, Char.ofNat_toNat]
      · have he : utf8Enc c.toNat =
            [240 + c.toNat / 262144, 128 + c.toNat / 4096 % 64,
              128 + c.toNat / 64 % 64, 128 + c.toNat % 64] := by
          rw [utf8Enc, if_neg h1, if_neg h2, if_neg h3]
        rw [he]
        simp only [List.cons_append, List.nil_append]
        rw [utf8DecAll, if_neg (by omega), if_neg (by omega), if_neg (by omega),
          if_neg (by omega), if_pos (by omega)]
        rw [utf8Dec3, if_pos (by constructor <;> omega)]
        rw [utf8Dec2, if_pos (by constructor <;> omega)]
        rw [utf8Dec1, if_pos (by constructor <;> omega)]
        have harith : (((240 + c.toNat / 262144 - 240) * 64 +
            (128 + c.toNat / 4096 % 64 - 128)) * 64 +
            (128 + c.toNat / 64 % 64 - 128)) * 64 + (128 + c.toNat % 64 - 128) =
            c.toNat := by omega
        rw [harith, if_pos hv, Char.ofNat_toNat]

theorem utf8_roundtrip : ∀ cs : List Char,
    utf8DecAll (cs.flatMap (fun c => utf8Enc c.toNat)) = some cs := by
  intro cs
  induction cs with
  | nil => rfl
  | cons c rest ih =>
    rw [List.flatMap_cons, utf8DecAll_enc_cons, ih]
    rfl

theorem hexVal_hexUpper : ∀ d, d < 16 → hexVal (hexUpper d) = some d := by decide

theorem percentDecodeBytes_pct (ps : Bool) (b : Nat) (hb : b < 256)
    (rest : List Char) :
    percentDecodeBytes ps (pctByte b ++ rest) =
      (percentDecodeBytes ps rest).map (fun bs => b :: bs) := by
  rw [pctByte]
  simp only [List.cons_append, List.nil_append]
  rw [percentDecodeBytes, if_pos rfl]
  rw [percentDecodeHex]
  rw [hexVal_hexUpper (b / 16) (by omega), hexVal_hexUpper (b % 16) (by omega)]
  show (percentDecodeBytes ps rest).map
    (fun bs => (16 * (b / 16) + b % 16) :: bs) = _
  have harith : 16 * (b / 16) + b % 16 = b := by omega
  simp only [harith]

theorem percentDecodeBytes_pcts (ps : Bool) :
    ∀ (bs : List Nat) (rest : List Char), (∀ b ∈ bs, b < 256) →
    percentDecodeBytes ps (bs.flatMap pctByte ++ rest) =
      (percentDecodeBytes ps rest).map (fun l => bs ++ l) := by
  intro bs
  induction bs with
  | nil =>
    intro rest _
    simp only [List.flatMap_nil, List.nil_append]
    cases percentDecodeBytes ps rest <;> rfl
  | cons b bs ih =>
    intro rest hlt
    rw [List.flatMap_cons, List.append_assoc]
    rw [percentDecodeBytes_pct ps b (hlt b (by simp))]
    rw [ih rest (fun x hx => hlt x (by simp [hx]))]
    cases percentDecodeBytes ps rest <;> rfl

theorem percentDecodeBytes_formChar (c : Char) (rest : List Char) :
    percentDecodeBytes true (formEncodeChar c ++ rest) =
      (percentDecodeBytes true rest).map (fun bs => utf8Enc c.toNat ++ bs) := by
  rw [formEncodeChar]
  by_cases hs : formSafe c
  · rw [if_pos hs]
    simp only [List.cons_append, List.nil_append]
    rw [percentDecodeBytes]
    have hpc : ¬(c = '%') := by intro h; rw [h] at hs; exact absurd hs (by decide)
    have hplus : ¬(c = '+') := by intro h; rw [h] at hs; exact absurd hs (by decide)
    rw [if_neg hpc]
    simp [hplus]
  · by_cases hsp : c = ' '
    · rw [if_neg hs, if_pos hsp, hsp]
      simp only [List.cons_append, List.nil_append]
      rw [percentDecodeBytes, if_neg (by decide)]
      have hu : utf8Enc 32 = [32] := by decide
      have hu2 : utf8Enc (Char.toNat (Char.ofNat 32)) = [32] := by decide
      simp [hu, hu2]
    · rw [if_neg hs, if_neg hsp]
      exact percentDecodeBytes_pcts true (utf8Enc c.toNat) rest
        (utf8Enc_bytes_lt (char_toNat_lt c))

theorem percentDecodeBytes_formEncode (cs : List Char) :
    percentDecodeBytes true (formEncode cs) =
      some (cs.flatMap (fun c => utf8Enc c.toNat)) := by
  induction cs with
  | nil => rfl
  | cons c rest ih =>
    have h1 : formEncode (c :: rest) = formEncodeChar c ++ formEncode rest := by
      simp [formEncode]
    rw [h1, percentDecodeBytes_formChar, ih]
    rfl

theorem formDecode_roundtrip (cs : List Char) :
    percentDecodeStr true (formEncode cs) = some cs := by
  rw [percentDecodeStr, percentDecodeBytes_formEncode]
  exact utf8_roundtrip cs

theorem percentDecodeBytes_compChar (c : Char) (rest : List Char) :
    percentDecodeBytes false (compEncodeChar c ++ rest) =
      (percentDecodeBytes false rest).map (fun bs => utf8Enc c.toNat ++ bs) := by
  rw [compEncodeChar]
  by_cases hs : compSafe c
  · rw [if_pos hs]
    simp only [List.cons_append, List.nil_append]
    rw [percentDecodeBytes]
    have hpc : ¬(c = '%') := by intro h; rw [h] at hs; exact absurd hs (by decide)
    rw [if_neg hpc]
    simp
  · rw [if_neg hs]
    exact percentDecodeBytes_pcts false (utf8Enc c.toNat) rest
      (utf8Enc_bytes_lt (char_toNat_lt c))

theorem percentDecodeBytes_compEncode (cs : List Char) :
    percentDecodeBytes false (compEncode cs) =
      some (cs.flatMap (fun c => utf8Enc c.toNat)) := by
  induction cs with
  | nil => rfl
  | cons c rest ih =>
    have h1 : compEncode (c :: rest) = compEncodeChar c ++ compEncode rest := by
      simp [compEncode]
    rw [h1, percentDecodeBytes_compChar, ih]
    rfl

theorem compDecode_roundtrip (cs : List Char) :
    percentDecodeStr false (compEncode cs) = some cs := by
  rw [percentDecodeStr, percentDecodeBytes_compEncode]
  exact utf8_roundtrip cs

theorem mem_pctByte {d : Char} {b : Nat} (hb : b < 256) (h : d ∈ pctByte b) :
    d = '%' ∨ ∃ x, x < 16 ∧ d = hexUpper x := by
  rw [pctByte] at h
  simp at h
  rcases h with h | h | h
  · exact Or.inl h
  · exact Or.inr ⟨b / 16, by omega, h⟩
  · exact Or.inr ⟨b % 16, by omega, h⟩

theorem mem_formEncode {d : Char} {cs : List Char} (h : d ∈ formEncode cs) :
    formSafe d = true ∨ d = '+' ∨ d = '%' ∨ ∃ x, x < 16 ∧ d = hexUpper x := by
  simp only [formEncode, List.mem_flatMap] at h
  obtain ⟨c, _, hd⟩ := h
  rw [formEncodeChar] at hd
  by_cases hs : formSafe c
  · rw [if_pos hs] at hd
    simp at hd
    exact Or.inl (hd ▸ hs)
  · rw [if_neg hs] at hd
    by_cases hsp : c = ' '
    · rw [if_pos hsp] at hd
      simp at hd
      exact Or.inr (Or.inl hd)
    · rw [if_neg hsp] at hd
      simp only [List.mem_flatMap] at hd
      obtain ⟨b, hbm, hdb⟩ := hd
      have hb : b < 256 := utf8Enc_bytes_lt (char_toNat_lt c) b hbm
      rcases mem_pctByte hb hdb with h | h
      · exact Or.inr (Or.inr (Or.inl h))
      · exact Or.inr (Or.inr (Or.inr h))

theorem mem_compEncode {d : Char} {cs : List Char} (h : d ∈ compEncode cs) :
    compSafe d = true ∨ d = '%' ∨ ∃ x, x < 16 ∧ d = hexUpper x := by
  simp only [compEncode, List.mem_flatMap] at h
  obtain ⟨c, _, hd⟩ := h
  rw [compEncodeChar] at hd
  by_cases hs : compSafe c
  · rw [if_pos hs] at hd
    simp at hd
    exact Or.inl (hd ▸ hs)
  · rw [if_neg hs] at hd
    simp only [List.mem_flatMap] at hd
    obtain ⟨b, hbm, hdb⟩ := hd
    have hb : b < 256 := utf8Enc_bytes_lt (char_toNat_lt c) b hbm
    rcases mem_pctByte hb hdb with h | h
    · exact Or.inr (Or.inl h)
    · exact Or.inr (Or.inr h)

theorem hexUpper_ne_special :
    ∀ x, x < 16 → hexUpper x ≠ '&' ∧ hexUpper x ≠ '=' ∧ hexUpper x ≠ '#' ∧
      hexUpper x ≠ lbrace := by decide

theorem formEncode_no_amp {cs : List Char} : '&' ∉ formEncode cs := by
  intro h
  rcases mem_formEncode h with hs | hs | hs | ⟨x, hx, hs⟩
  · exact absurd hs (by decide)
  · exact absurd hs (by decide)
  · exact absurd hs (by decide)
  · exact absurd hs.symm (hexUpper_ne_special x hx).1

theorem formEncode_no_eq {cs : List Char} : '=' ∉ formEncode cs := by
  intro h
  rcases mem_formEncode h with hs | hs | hs | ⟨x, hx, hs⟩
  · exact absurd hs (by decide)
  · exact absurd hs (by decide)
  · exact absurd hs (by decide)
  · exact absurd hs.symm (hexUpper_ne_special x hx).2.1

theorem formEncode_no_hash {cs : List Char} : '#' ∉ formEncode cs := by
  intro h
  rcases mem_formEncode h with hs | hs | hs | ⟨x, hx, hs⟩
  · exact absurd hs (by decide)
  · exact absurd hs (by decide)
  · exact absurd hs (by decide)
  · exact absurd hs.symm (hexUpper_ne_special x hx).2.2.1

theorem compEncode_no_hash {cs : List Char} : '#' ∉ compEncode cs := by
  intro h
  rcases mem_compEncode h with hs | hs | ⟨x, hx, hs⟩
  · exact absurd hs (by decide)
  · exact absurd hs (by decide)
  · exact absurd hs.symm (hexUpper_ne_special x hx).2.2.1

theorem splitChar_ne_nil (sep : Char) : ∀ cs, splitChar sep cs ≠ [] := by
  intro cs
  induction cs with
  | nil => simp [splitChar]
  | cons c rest ih =>
    by_cases hc : c = sep
    · simp [splitChar, hc]
    · simp only [splitChar, if_neg hc]
      rcases hsp : splitChar sep rest with _ | ⟨h, t⟩ <;> simp

theorem splitChar_no_sep {sep : Char} : ∀ {cs : List Char}, sep ∉ cs →
    splitChar sep cs = [cs] := by
  intro cs
  induction cs with
  | nil => intro _; rfl
  | cons c rest ih =>
    intro h
    have hc : ¬(c = sep) := fun he => h (by simp [he])
    simp only [splitChar, if_neg hc]
    rw [ih (fun hm => h (by simp [hm]))]

theorem splitChar_append_sep {sep : Char} : ∀ {x : List Char}, sep ∉ x →
    ∀ t, splitChar sep (x ++ sep :: t) = x :: splitChar sep t := by
  intro x
  induction x with
  | nil =>
    intro _ t
    simp [splitChar]
  | cons c x2 ih =>
    intro h t
    have hc : ¬(c = sep) := fun he => h (by simp [he])
    simp only [List.cons_append, splitChar, if_neg hc]
    simp only [List.append_eq]
    rw [ih (fun hm => h (by simp [hm])) t]

theorem splitChar_intercalate {sep : Char} : ∀ (parts : List (List Char)),
    parts ≠ [] → (∀ p ∈ parts, sep ∉ p) →
    splitChar sep (intercalateChar sep parts) = parts := by
  intro parts
  induction parts with
  | nil => intro h; exact absurd rfl h
  | cons x xs ih =>
    intro _ hall
    cases xs with
    | nil =>
      have heq : intercalateChar sep [x] = x := rfl
      rw [heq]
      exact splitChar_no_sep (hall x (by simp))
    | cons y ys =>
      have heq : intercalateChar sep (x :: y :: ys) =
          x ++ sep :: intercalateChar sep (y :: ys) := rfl
      rw [heq]
      rw [splitChar_append_sep (hall x (by simp))]
      rw [ih (by simp) (fun p hp => hall p (by simp [hp]))]

-- ### Decimal digits

theorem natDigitsRevAux_zero : ∀ f, natDigitsRevAux f 0 = [] := by
  intro f
  cases f <;> simp [natDigitsRevAux]

theorem natDigitsRevAux_irrel : ∀ f1 f2 n : Nat, n ≤ f1 → n ≤ f2 →
    natDigitsRevAux f1 n = natDigitsRevAux f2 n := by
  intro f1
  induction f1 with
  | zero =>
    intro f2 n h1 _
    have hn : n = 0 := by omega
    subst hn
    rw [natDigitsRevAux_zero, natDigitsRevAux_zero]
  | succ f ih =>
    intro f2 n h1 h2
    by_cases hn : n = 0
    · subst hn
      rw [natDigitsRevAux_zero, natDigitsRevAux_zero]
    · obtain ⟨g, rfl⟩ : ∃ g, f2 = g + 1 := ⟨f2 - 1, by omega⟩
      rw [natDigitsRevAux, natDigitsRevAux, if_neg hn, if_neg hn]
      have := ih g (n / 10) (by omega) (by omega)
      rw [this]

theorem natDigitsRev_unfold (n : Nat) :
    natDigitsRev n =
      if n = 0 then [] else Char.ofNat (48 + n % 10) :: natDigitsRev (n / 10) := by
  by_cases hn : n = 0
  · subst hn
    rw [if_pos rfl]
    exact natDigitsRevAux_zero 0
  · rw [if_neg hn]
    obtain ⟨m, rfl⟩ : ∃ m, n = m + 1 := ⟨n - 1, by omega⟩
    show natDigitsRevAux (m + 1) (m + 1) = _
    rw [natDigitsRevAux, if_neg hn]
    have := natDigitsRevAux_irrel m ((m + 1) / 10) ((m + 1) / 10)
      (by omega) (le_refl _)
    rw [this]
    rfl

theorem natDigitsRev_shape : ∀ n, ∀ c ∈ natDigitsRev n,
    ∃ d, d < 10 ∧ c = Char.ofNat (48 + d) := by
  intro n
  induction n using Nat.strong_induction_on with
  | _ n ih =>
    intro c hc
    rw [natDigitsRev_unfold] at hc
    by_cases hn : n = 0
    · rw [if_pos hn] at hc
      simp at hc
    · rw [if_neg hn] at hc
      rcases List.mem_cons.mp hc with h | h
      · exact ⟨n % 10, by omega, h⟩
      · exact ih (n / 10) (Nat.div_lt_self (by omega) (by omega)) c h

theorem digitChar_facts : ∀ d, d < 10 →
    (Char.ofNat (48 + d)).isDigit = true ∧ (Char.ofNat (48 + d)).toNat = 48 + d ∧
    Char.ofNat (48 + d) ≠ '-' ∧ Char.ofNat (48 + d) ≠ 'n' ∧
    Char.ofNat (48 + d) ≠ 't' ∧ Char.ofNat (48 + d) ≠ 'f' ∧
    Char.ofNat (48 + d) ≠ '"' ∧ Char.ofNat (48 + d) ≠ '[' ∧
    Char.ofNat (48 + d) ≠ lbrace ∧ Char.ofNat (48 + d) ≠ ']' ∧
    Char.ofNat (48 + d) ≠ rbrace := by decide

theorem natDigitsRev_digits : ∀ n, ∀ c ∈ natDigitsRev n, c.isDigit = true := by
  intro n c hc
  obtain ⟨d, hd, rfl⟩ := natDigitsRev_shape n c hc
  exact (digitChar_facts d hd).1

theorem natChars_head : ∀ n : Nat, ∃ d t, d < 10 ∧
    natChars n = Char.ofNat (48 + d) :: t := by
  intro n
  by_cases hn : n = 0
  · exact ⟨0, [], by omega, by rw [hn]; rfl⟩
  · rw [natChars, if_neg hn]
    rcases hr : (natDigitsRev n).reverse with _ | ⟨c, t⟩
    · exfalso
      have : natDigitsRev n = [] := by
        have := congrArg List.reverse hr
        simpa using this
      rw [natDigitsRev_unfold, if_neg hn] at this
      exact List.noConfusion this
    · have hc : c ∈ natDigitsRev n := by
        rw [← List.mem_reverse, hr]
        simp
      obtain ⟨d, hd, rfl⟩ := natDigitsRev_shape n c hc
      exact ⟨d, t, hd, rfl⟩

theorem natChars_digits : ∀ n, ∀ c ∈ natChars n, c.isDigit = true := by
  intro n c hc
  by_cases hn : n = 0
  · subst hn
    simp only [natChars, if_pos rfl] at hc
    simp at hc
    subst hc
    decide
  · rw [natChars, if_neg hn, List.mem_reverse] at hc
    exact natDigitsRev_digits n c hc

theorem foldr_digitsRev : ∀ n acc : Nat,
    (natDigitsRev n).foldr (fun c a => a * 10 + (c.toNat - 48)) acc =
      acc * 10 ^ (natDigitsRev n).length + n := by
  intro n
  induction n using Nat.strong_induction_on with
  | _ n ih =>
    intro acc
    by_cases hn : n = 0
    · subst hn
      rw [natDigitsRev_unfold]
      simp
    · rw [natDigitsRev_unfold, if_neg hn]
      rw [List.foldr_cons, List.length_cons]
      rw [ih (n / 10) (Nat.div_lt_self (by omega) (by omega)) acc]
      rw [(digitChar_facts (n % 10) (by omega)).2.1]
      rw [pow_succ, ← Nat.mul_assoc]
      generalize acc * 10 ^ (natDigitsRev (n / 10)).length = B
      omega

theorem jparseDigitsAux_ds : ∀ (ds : List Char) (acc : Nat) (rest : List Char),
    (∀ c ∈ ds, c.isDigit = true) →
    (∀ d, rest.head? = some d → d.isDigit = false) →
    jparseDigitsAux acc (ds ++ rest) =
      (ds.foldl (fun a c => a * 10 + (c.toNat - 48)) acc, rest) := by
  intro ds
  induction ds with
  | nil =>
    intro acc rest _ hrest
    cases rest with
    | nil => rfl
    | cons d r =>
      rw [List.nil_append, jparseDigitsAux, if_neg (by simp [hrest d rfl])]
      rfl
  | cons c ds ih =>
    intro acc rest hds hrest
    rw [List.cons_append, jparseDigitsAux, if_pos (hds c (by simp))]
    rw [ih _ rest (fun x hx => hds x (by simp [hx])) hrest]
    rfl

theorem natChars_foldl (n : Nat) :
    (natChars n).foldl (fun a c => a * 10 + (c.toNat - 48)) 0 = n := by
  by_cases hn : n = 0
  · subst hn; decide
  · rw [natChars, if_neg hn, List.foldl_reverse]
    have := foldr_digitsRev n 0
    simpa using this

theorem jparseNatDigits_natChars (n : Nat) (rest : List Char)
    (hrest : ∀ d, rest.head? = some d → d.isDigit = false) :
    jparseNatDigits (natChars n ++ rest) = some (n, rest) := by
  obtain ⟨d, t, hd, hct⟩ := natChars_head n
  rw [hct, List.cons_append, jparseNatDigits]
  rw [if_pos (digitChar_facts d hd).1]
  rw [← List.cons_append, ← hct]
  rw [jparseDigitsAux_ds (natChars n) 0 rest (natChars_digits n) hrest]
  rw [natChars_foldl]

theorem jparseNum_print (v : Int) (rest : List Char)
    (hrest : ∀ d, rest.head? = some d → d.isDigit = false) :
    jparseNum (intChars v ++ rest) = some (.num v, rest) := by
  rw [intChars]
  by_cases hv : v < 0
  · rw [if_pos hv, List.cons_append, jparseNum, if_pos rfl]
    rw [jparseNatDigits_natChars v.natAbs rest hrest]
    show some (JVal.num (-(v.natAbs : Int)), rest) = some (JVal.num v, rest)
    have : -(v.natAbs : Int) = v := by omega
    rw [this]
  · rw [if_neg hv]
    obtain ⟨d, t, hd, hct⟩ := natChars_head v.toNat
    rw [hct, List.cons_append, jparseNum]
    rw [if_neg (digitChar_facts d hd).2.2.1]
    rw [← List.cons_append, ← hct]
    rw [jparseNatDigits_natChars v.toNat rest hrest]
    show some (JVal.num ((v.toNat : Int)), rest) = some (JVal.num v, rest)
    have : (v.toNat : Int) = v := by omega
    rw [this]

-- ### JSON string bodies

theorem hexVal_hexLower : ∀ d, d < 16 → hexVal (hexLower d) = some d := by decide

theorem jparseStrChars_esc : ∀ (cs rest : List Char),
    jparseStrChars (escList cs ++ '"' :: rest) = some (cs, rest) := by
  intro cs
  induction cs with
  | nil =>
    intro rest
    rw [escList, List.nil_append, jparseStrChars, if_pos rfl]
  | cons c cs ih =>
    intro rest
    rw [escList, List.append_assoc, escChar]
    by_cases h1 : c = '"'
    · rw [if_pos h1]
      simp only [List.cons_append, List.nil_append]
      rw [jparseStrChars, if_neg (by decide), if_pos rfl]
      rw [jparseEsc, if_pos (Or.inl rfl)]
      rw [ih rest]
      rw [h1]
      rfl
    · rw [if_neg h1]
      by_cases h2 : c = '\\'
      · rw [if_pos h2]
        simp only [List.cons_append, List.nil_append]
        rw [jparseStrChars, if_neg (by decide), if_pos rfl]
        rw [jparseEsc, if_pos (Or.inr (Or.inl rfl))]
        rw [ih rest]
        rw [h2]
        rfl
      · rw [if_neg h2]
        by_cases h3 : c = Char.ofNat 8
        · rw [if_pos h3]
          simp only [List.cons_append, List.nil_append]
          rw [jparseStrChars, if_neg (by decide), if_pos rfl]
          rw [jparseEsc, if_neg (by decide), if_pos rfl]
          rw [ih rest]
          rw [h3]
          rfl
        · rw [if_neg h3]
          by_cases h4 : c = Char.ofNat 9
          · rw [if_pos h4]
            simp only [List.cons_append, List.nil_append]
            rw [jparseStrChars, if_neg (by decide), if_pos rfl]
            rw [jparseEsc, if_neg (by decide), if_neg (by decide), if_pos rfl]
            rw [ih rest]
            rw [h4]
            rfl
          · rw [if_neg h4]
            by_cases h5 : c = Char.ofNat 10
            · rw [if_pos h5]
              simp only [List.cons_append, List.nil_append]
              rw [jparseStrChars, if_neg (by decide), if_pos rfl]
              rw [jparseEsc, if_neg (by decide), if_neg (by decide),
                if_neg (by decide), if_pos rfl]
              rw [ih rest]
              rw [h5]
              rfl
            · rw [if_neg h5]
              by_cases h6 : c = Char.ofNat 12
              · rw [if_pos h6]
                simp only [List.cons_append, List.nil_append]
                rw [jparseStrChars, if_neg (by decide), if_pos rfl]
                rw [jparseEsc, if_neg (by decide), if_neg (by decide),
                  if_neg (by decide), if_neg (by decide), if_pos rfl]
                rw [ih rest]
                rw [h6]
                rfl
              · rw [if_neg h6]
                by_cases h7 : c = Char.ofNat 13
                · rw [if_pos h7]
                  simp only [List.cons_append, List.nil_append]
                  rw [jparseStrChars, if_neg (by decide), if_pos rfl]
                  rw [jparseEsc, if_neg (by decide), if_neg (by decide),
                    if_neg (by decide), if_neg (by decide), if_neg (by decide),
                    if_pos rfl]
                  rw [ih rest]
                  rw [h7]
                  rfl
                · rw [if_neg h7]
                  by_cases h8 : c.toNat < 32
                  · rw [if_pos h8]
                    simp only [List.cons_append, List.nil_append]
                    rw [jparseStrChars, if_neg (by decide), if_pos rfl]
                    rw [jparseEsc, if_neg (by decide), if_neg (by decide),
                      if_neg (by decide), if_neg (by decide), if_neg (by decide),
                      if_neg (by decide), if_pos rfl]
                    rw [jparseHex4]
                    rw [hexVal_hexLower (c.toNat / 16) (by omega),
                      hexVal_hexLower (c.toNat % 16) (by omega)]
                    have hv0 : hexVal '0' = some 0 := by decide
                    rw [hv0]
                    show (jparseStrChars (escList cs ++ '"' :: rest)).map _ = _
                    rw [ih rest]
                    have harith : ((0 * 16 + 0) * 16 + c.toNat / 16) * 16 +
                        c.toNat % 16 = c.toNat := by omega
                    simp only [harith, Char.ofNat_toNat]
                    rfl
                  · rw [if_neg h8]
                    simp only [List.cons_append, List.nil_append]
                    rw [jparseStrChars, if_neg h1, if_neg h2]
                    rw [ih rest]
                    rfl

-- ### JSON print / parse round trip

theorem jparseVal_quote (fuel : Nat) (cs : List Char) :
    jparseVal (fuel + 1) ('"' :: cs) =
      match jparseStrChars cs with
      | some (body, r) => some (.str (String.mk body), r)
      | none => none := rfl

theorem jparseVal_lbracket (fuel : Nat) (r0 : Char) (r : List Char) :
    jparseVal (fuel + 1) ('[' :: r0 :: r) =
      if r0 = ']' then some (.arr [], r)
      else
        match jparseElems fuel (r0 :: r) with
        | some (xs, r2) => some (.arr xs, r2)
        | none => none := rfl

theorem jparseVal_lbrace (fuel : Nat) (r0 : Char) (r : List Char) :
    jparseVal (fuel + 1) (lbrace :: r0 :: r) =
      if r0 = rbrace then some (.obj [], r)
      else
        match jparseFields fuel (r0 :: r) with
        | some (fs, r2) => some (.obj fs, r2)
        | none => none := rfl

theorem jparseElems_step (fuel : Nat) (cs : List Char) :
    jparseElems (fuel + 1) cs =
      match jparseVal fuel cs with
      | none => none
      | some (v, r) =>
        match r with
        | [] => none
        | c :: r2 =>
          if c = ',' then
            match jparseElems fuel r2 with
            | some (vs, r3) => some (v :: vs, r3)
            | none => none
          else if c = ']' then some ([v], r2)
          else none := rfl

theorem jparseFields_quote (fuel : Nat) (rest : List Char) :
    jparseFields (fuel + 1) ('"' :: rest) =
      match jparseStrChars rest with
      | none => none
      | some (k, r) =>
        match r with
        | [] => none
        | c1 :: r2 =>
          if c1 = ':' then
            match jparseVal fuel r2 with
            | none => none
            | some (v, r3) =>
              match r3 with
              | [] => none
              | c2 :: r4 =>
                if c2 = ',' then
                  match jparseFields fuel r4 with
                  | some (fs, r5) => some ((String.mk k, v) :: fs, r5)
                  | none => none
                else if c2 = rbrace then some ([(String.mk k, v)], r4)
                else none
          else none := rfl

theorem jparseVal_step (fuel : Nat) (c : Char) (cs : List Char) :
    jparseVal (fuel + 1) (c :: cs) =
      (if c = 'n' then
        if cs.take 3 = ['u', 'l', 'l'] then some (.null, cs.drop 3) else none
      else if c = 't' then
        if cs.take 3 = ['r', 'u', 'e'] then some (.bool true, cs.drop 3)
        else none
      else if c = 'f' then
        if cs.take 4 = ['a', 'l', 's', 'e'] then some (.bool false, cs.drop 4)
        else none
      else if c = '"' then
        match jparseStrChars cs with
        | some (body, r) => some (.str (String.mk body), r)
        | none => none
      else if c = '[' then
        match cs with
        | r0 :: r =>
          if r0 = ']' then some (.arr [], r)
          else
            match jparseElems fuel (r0 :: r) with
            | some (xs, r2) => some (.arr xs, r2)
            | none => none
        | [] => none
      else if c = lbrace then
        match cs with
        | r0 :: r =>
          if r0 = rbrace then some (.obj [], r)
          else
            match jparseFields fuel (r0 :: r) with
            | some (fs, r2) => some (.obj fs, r2)
            | none => none
        | [] => none
      else jparseNum (c :: cs)) := rfl

theorem jparseVal_other (fuel : Nat) (c : Char) (cs : List Char)
    (h1 : ¬c = 'n') (h2 : ¬c = 't') (h3 : ¬c = 'f') (h4 : ¬c = '"')
    (h5 : ¬c = '[') (h6 : ¬c = lbrace) :
    jparseVal (fuel + 1) (c :: cs) = jparseNum (c :: cs) := by
  rw [jparseVal_step]
  rw [if_neg h1, if_neg h2, if_neg h3, if_neg h4, if_neg h5, if_neg h6]

theorem head_not_digit {c : Char} (h : c.isDigit = false) (l : List Char) :
    ∀ d, (c :: l).head? = some d → d.isDigit = false := by
  intro d hd
  simp at hd
  rw [← hd]
  exact h

theorem jprint_head : ∀ v : JVal, ∃ c t, jprint v = c :: t ∧
    ¬c = ']' ∧ ¬c = rbrace := by
  intro v
  cases v with
  | undef => exact ⟨'n', _, rfl, by decide, by decide⟩
  | null => exact ⟨'n', _, rfl, by decide, by decide⟩
  | bool b =>
    cases b with
    | true => exact ⟨'t', _, rfl, by decide, by decide⟩
    | false => exact ⟨'f', _, rfl, by decide, by decide⟩
  | num n =>
    show ∃ c t, intChars n = c :: t ∧ ¬c = ']' ∧ ¬c = rbrace
    rw [intChars]
    by_cases hv : n < 0
    · rw [if_pos hv]
      exact ⟨'-', _, rfl, by decide, by decide⟩
    · rw [if_neg hv]
      obtain ⟨d, t, hd, hct⟩ := natChars_head n.toNat
      exact ⟨_, t, hct, (digitChar_facts d hd).2.2.2.2.2.2.2.2.2.1,
        (digitChar_facts d hd).2.2.2.2.2.2.2.2.2.2⟩
  | str s => exact ⟨'"', _, rfl, by decide, by decide⟩
  | arr xs => exact ⟨'[', _, rfl, by decide, by decide⟩
  | obj fs => exact ⟨lbrace, _, rfl, by decide, by decide⟩

theorem jprint_len_pos : ∀ v : JVal, 0 < (jprint v).length := by
  intro v
  obtain ⟨c, t, hct, _, _⟩ := jprint_head v
  rw [hct]
  simp

theorem jprintElems_len_pos : ∀ xs, 0 < (jprintElems xs).length := by
  intro xs
  rcases xs with _ | ⟨x, _ | ⟨y, ys⟩⟩ <;> simp [jprintElems]

theorem jprintFields_len_pos : ∀ fs, 0 < (jprintFields fs).length := by
  intro fs
  rcases fs with _ | ⟨⟨k, v⟩, _ | ⟨⟨k2, v2⟩, fs2⟩⟩ <;> simp [jprintFields, escStr]

theorem noUndef_not_undef {x : JVal} (h : noUndef x = true) :
    x.isUndef = false := by
  cases x with
  | undef => simp [noUndef] at h
  | null => rfl
  | bool b => rfl
  | num n => rfl
  | str s => rfl
  | arr xs => rfl
  | obj fs => rfl

mutual

theorem stripUndef_noUndef : ∀ v, noUndef v = true → stripUndef v = v
  | .undef, h => by simp [noUndef] at h
  | .null, _ => rfl
  | .bool b, _ => rfl
  | .num n, _ => rfl
  | .str s, _ => rfl
  | .arr xs, h => by rw [stripUndef, stripElems_noUndef xs h]
  | .obj fs, h => by rw [stripUndef, stripFields_noUndef fs h]

theorem stripElems_noUndef : ∀ xs, noUndefElems xs = true → stripElems xs = xs
  | [], _ => rfl
  | x :: xs, h => by
    have hp : noUndef x = true ∧ noUndefElems xs = true := by
      have h2 : (noUndef x && noUndefElems xs) = true := h
      simpa using h2
    rw [stripElems]
    rw [stripElems_noUndef xs hp.2]
    rw [noUndef_not_undef hp.1]
    simp only [Bool.false_eq_true, if_false]
    rw [stripUndef_noUndef x hp.1]

theorem stripFields_noUndef : ∀ fs, noUndefFields fs = true → stripFields fs = fs
  | [], _ => rfl
  | (k, v) :: fs, h => by
    have hp : noUndef v = true ∧ noUndefFields fs = true := by
      have h2 : (noUndef v && noUndefFields fs) = true := h
      simpa using h2
    rw [stripFields]
    rw [noUndef_not_undef hp.1]
    simp only [Bool.false_eq_true, if_false]
    rw [stripFields_noUndef fs hp.2, stripUndef_noUndef v hp.1]

end

theorem jparse_print : ∀ fuel : Nat,
    (∀ (v : JVal) (rest : List Char), noUndef v = true →
      (jprint v).length ≤ fuel →
      (∀ d, rest.head? = some d → d.isDigit = false) →
      jparseVal fuel (jprint v ++ rest) = some (v, rest)) ∧
    (∀ (xs : List JVal) (rest : List Char), xs ≠ [] →
      noUndefElems xs = true → (jprintElems xs).length ≤ fuel →
      jparseElems fuel (jprintElems xs ++ rest) = some (xs, rest)) ∧
    (∀ (fs : List (String × JVal)) (rest : List Char), fs ≠ [] →
      noUndefFields fs = true → (jprintFields fs).length ≤ fuel →
      jparseFields fuel (jprintFields fs ++ rest) = some (fs, rest)) := by
  intro fuel
  induction fuel with
  | zero =>
    refine ⟨?_, ?_, ?_⟩
    · intro v _ _ hlen _
      have := jprint_len_pos v
      omega
    · intro xs _ _ _ hlen
      have := jprintElems_len_pos xs
      omega
    · intro fs _ _ _ hlen
      have := jprintFields_len_pos fs
      omega
  | succ fuel ih =>
    obtain ⟨ihV, ihE, ihF⟩ := ih
    refine ⟨?_, ?_, ?_⟩
    · intro v rest hnu hlen hrest
      cases v with
      | undef => simp [noUndef] at hnu
      | null => rfl
      | bool b => cases b <;> rfl
      | num n =>
        have hsh : jprint (.num n) ++ rest = intChars n ++ rest := rfl
        rw [hsh, intChars]
        by_cases hv : n < 0
        · rw [if_pos hv, List.cons_append]
          rw [jparseVal_other fuel '-' _ (by decide) (by decide) (by decide)
            (by decide) (by decide) (by decide)]
          rw [← List.cons_append]
          have : ('-' :: natChars n.natAbs) ++ rest = intChars n ++ rest := by
            rw [intChars, if_pos hv]
          rw [this]
          exact jparseNum_print n rest hrest
        · rw [if_neg hv]
          obtain ⟨d, t, hd, hct⟩ := natChars_head n.toNat
          rw [hct, List.cons_append]
          rw [jparseVal_other fuel _ _ (digitChar_facts d hd).2.2.2.1
            (digitChar_facts d hd).2.2.2.2.1 (digitChar_facts d hd).2.2.2.2.2.1
            (digitChar_facts d hd).2.2.2.2.2.2.1
            (digitChar_facts d hd).2.2.2.2.2.2.2.1
            (digitChar_facts d hd).2.2.2.2.2.2.2.2.1]
          rw [← List.cons_append, ← hct]
          have : natChars n.toNat ++ rest = intChars n ++ rest := by
            rw [intChars, if_neg hv]
          rw [this]
          exact jparseNum_print n rest hrest
      | str s =>
        have hsh : jprint (.str s) ++ rest =
            '"' :: (escList s.data ++ '"' :: rest) := by
          show escStr s ++ rest = _
          rw [escStr]
          simp
        rw [hsh, jparseVal_quote, jparseStrChars_esc]
      | arr xs =>
        rcases xs with _ | ⟨x, xs⟩
        · rfl
        · have hA : ∃ A, jprintElems (x :: xs) = jprint x ++ A := by
            rcases xs with _ | ⟨y, ys⟩
            · exact ⟨[']'], rfl⟩
            · exact ⟨',' :: jprintElems (y :: ys), rfl⟩
          obtain ⟨A, hAe⟩ := hA
          obtain ⟨c0, t0, hpx, hne1, _⟩ := jprint_head x
          have hsh : jprint (.arr (x :: xs)) ++ rest =
              '[' :: c0 :: (t0 ++ A ++ rest) := by
            show ('[' :: jprintElems (x :: xs)) ++ rest = _
            rw [hAe, hpx]
            simp
          rw [hsh, jparseVal_lbracket, if_neg hne1]
          have hback : c0 :: (t0 ++ A ++ rest) = jprintElems (x :: xs) ++ rest := by
            rw [hAe, hpx]
            simp
          rw [hback]
          have hlen2 : (jprintElems (x :: xs)).length ≤ fuel := by
            have h2 : (jprint (JVal.arr (x :: xs))).length =
                (jprintElems (x :: xs)).length + 1 := by
              show ('[' :: jprintElems (x :: xs)).length = _
              simp
            omega
          rw [ihE (x :: xs) rest (by simp) hnu hlen2]
      | obj fs =>
        rcases fs with _ | ⟨⟨k, v⟩, fs⟩
        · rfl
        · have hA : ∃ A, jprintFields ((k, v) :: fs) =
              escStr k ++ (':' :: (jprint v ++ A)) := by
            rcases fs with _ | ⟨⟨k2, v2⟩, fs2⟩
            · exact ⟨[rbrace], rfl⟩
            · exact ⟨',' :: jprintFields ((k2, v2) :: fs2), rfl⟩
          obtain ⟨A, hAe⟩ := hA
          have hsh : jprint (.obj ((k, v) :: fs)) ++ rest =
              lbrace :: '"' :: (escList k.data ++ '"' :: (':' :: (jprint v ++ A)) ++ rest) := by
            show (lbrace :: jprintFields ((k, v) :: fs)) ++ rest = _
            rw [hAe, escStr]
            simp
          rw [hsh, jparseVal_lbrace, if_neg (by decide)]
          have hback : '"' :: (escList k.data ++ '"' :: (':' :: (jprint v ++ A)) ++ rest) =
              jprintFields ((k, v) :: fs) ++ rest := by
            rw [hAe, escStr]
            simp
          rw [hback]
          have hlen2 : (jprintFields ((k, v) :: fs)).length ≤ fuel := by
            have h2 : (jprint (JVal.obj ((k, v) :: fs))).length =
                (jprintFields ((k, v) :: fs)).length + 1 := by
              show (lbrace :: jprintFields ((k, v) :: fs)).length = _
              simp
            omega
          rw [ihF ((k, v) :: fs) rest (by simp) hnu hlen2]
    · intro xs rest hne hnu hlen
      rcases xs with _ | ⟨x, xs⟩
      · exact absurd rfl hne
      · have hp : noUndef x = true ∧ noUndefElems xs = true := by
          have h2 : (noUndef x && noUndefElems xs) = true := hnu
          simpa using h2
        rcases xs with _ | ⟨y, ys⟩
        · have hsh : jprintElems [x] ++ rest = jprint x ++ (']' :: rest) := by
            show (jprint x ++ [']']) ++ rest = _
            simp
          have hlenx : (jprint x).length ≤ fuel := by
            have h2 : (jprintElems [x]).length = (jprint x).length + 1 := by
              show (jprint x ++ [']']).length = _
              simp
            omega
          rw [jparseElems_step, hsh]
          rw [ihV x (']' :: rest) hp.1 hlenx (head_not_digit (by decide) rest)]
          rfl
        · have hsh : jprintElems (x :: y :: ys) ++ rest =
              jprint x ++ (',' :: (jprintElems (y :: ys) ++ rest)) := by
            show (jprint x ++ (',' :: jprintElems (y :: ys))) ++ rest = _
            simp
          have hlenx : (jprint x).length ≤ fuel ∧
              (jprintElems (y :: ys)).length ≤ fuel := by
            have h2 : (jprintElems (x :: y :: ys)).length =
                (jprint x).length + 1 + (jprintElems (y :: ys)).length := by
              show (jprint x ++ (',' :: jprintElems (y :: ys))).length = _
              simp
              omega
            constructor <;> omega
          rw [jparseElems_step, hsh]
          rw [ihV x _ hp.1 hlenx.1 (head_not_digit (by decide) _)]
          show (match jparseElems fuel (jprintElems (y :: ys) ++ rest) with
            | some (vs, r3) => some (x :: vs, r3)
            | none => none) = some (x :: y :: ys, rest)
          rw [ihE (y :: ys) rest (by simp) hp.2 hlenx.2]
    · intro fs rest hne hnu hlen
      rcases fs with _ | ⟨⟨k, v⟩, fs⟩
      · exact absurd rfl hne
      · have hp : noUndef v = true ∧ noUndefFields fs = true := by
          have h2 : (noUndef v && noUndefFields fs) = true := hnu
          simpa using h2
        have hA : ∃ A, jprintFields ((k, v) :: fs) =
            escStr k ++ (':' :: (jprint v ++ A)) ∧
            ((fs = [] ∧ A = [rbrace]) ∨
              (fs ≠ [] ∧ A = ',' :: jprintFields fs)) := by
          rcases fs with _ | ⟨⟨k2, v2⟩, fs2⟩
          · exact ⟨[rbrace], rfl, Or.inl ⟨rfl, rfl⟩⟩
          · exact ⟨',' :: jprintFields ((k2, v2) :: fs2), rfl,
              Or.inr ⟨by simp, rfl⟩⟩
        obtain ⟨A, hAe, hAcase⟩ := hA
        have hsh : jprintFields ((k, v) :: fs) ++ rest =
            '"' :: (escList k.data ++ '"' :: (':' :: (jprint v ++ (A ++ rest)))) := by
          rw [hAe, escStr]
          simp
        rw [hsh, jparseFields_quote, jparseStrChars_esc]
        show (match jparseVal fuel (jprint v ++ (A ++ rest)) with
          | none => none
          | some (w, r3) =>
            match r3 with
            | [] => none
            | c2 :: r4 =>
              if c2 = ',' then
                match jparseFields fuel r4 with
                | some (gs, r5) => some ((String.mk k.data, w) :: gs, r5)
                | none => none
              else if c2 = rbrace then some ([(String.mk k.data, w)], r4)
              else none) = some ((k, v) :: fs, rest)
        have hApos : 0 < A.length := by
          rcases hAcase with ⟨_, hA2⟩ | ⟨_, hA2⟩ <;> rw [hA2] <;> simp
        have hlensum : (jprintFields ((k, v) :: fs)).length =
            (escStr k).length + 1 + (jprint v).length + A.length := by
          rw [hAe]
          simp
          omega
        have hlenv : (jprint v).length ≤ fuel := by omega
        have hdA : ∀ d, (A ++ rest).head? = some d → d.isDigit = false := by
          rcases hAcase with ⟨_, hA2⟩ | ⟨_, hA2⟩ <;> rw [hA2]
          · exact head_not_digit (by decide) rest
          · exact head_not_digit (by decide) _
        rw [ihV v (A ++ rest) hp.1 hlenv hdA]
        rcases hAcase with ⟨hfs, rfl⟩ | ⟨hfs, rfl⟩
        · subst hfs
          simp only [List.cons_append, List.nil_append]
          exact rfl
        · simp only [List.cons_append]
          have hlen3 : (jprintFields fs).length ≤ fuel := by
            have h5 : (',' :: jprintFields fs).length =
                (jprintFields fs).length + 1 := by simp
            have h6 := jprint_len_pos v
            omega
          rw [ihF fs rest hfs hp.2 hlen3]
          exact rfl

theorem jsonParseFull_print (v : JVal) (hnu : noUndef v = true) :
    jsonParseFull (jprint v) = some v := by
  rw [jsonParseFull]
  have h := (jparse_print ((jprint v).length + 1)).1 v [] hnu (by omega)
    (by intro d hd; simp at hd)
  rw [List.append_nil] at h
  rw [h]
  rfl

-- ### Sorting, lookups, Object.assign

theorem insertByKey_perm {α : Type} (x : String × α) (l : List (String × α)) :
    (insertByKey x l).Perm (x :: l) := by
  induction l with
  | nil => exact List.Perm.refl _
  | cons y ys ih =>
    rw [insertByKey]
    by_cases h : strLe x.1 y.1
    · rw [if_pos h]
    · rw [if_neg h]
      exact (List.Perm.cons y ih).trans (List.Perm.swap x y ys)

theorem sortByKey_perm {α : Type} (l : List (String × α)) :
    (sortByKey l).Perm l := by
  induction l with
  | nil => exact List.Perm.refl _
  | cons x xs ih =>
    rw [sortByKey]
    exact (insertByKey_perm x (sortByKey xs)).trans (List.Perm.cons x ih)

theorem sortByKey_keys_nodup {α : Type} {l : List (String × α)}
    (hnd : (l.map Prod.fst).Nodup) : ((sortByKey l).map Prod.fst).Nodup := by
  exact (((sortByKey_perm l).map Prod.fst).nodup_iff).mpr hnd

theorem lookupP_sortByKey {α : Type} (l : List (String × α))
    (hnd : (l.map Prod.fst).Nodup) (k : String) :
    lookupP k (sortByKey l) = lookupP k l := by
  have hperm := sortByKey_perm l
  have hnd2 := sortByKey_keys_nodup hnd
  cases hv : lookupP k l with
  | some v =>
    exact lookupP_of_mem_nodup hnd2 (hperm.mem_iff.mpr (lookupP_mem hv))
  | none =>
    cases hv2 : lookupP k (sortByKey l) with
    | none => rfl
    | some w =>
      exact absurd (hperm.mem_iff.mp (lookupP_mem hv2))
        (lookupP_none_not_mem hv w)

theorem setFieldP_not_mem {α : Type} : ∀ (t : List (String × α)) (k : String)
    (v : α), lookupP k t = none → setFieldP t k v = t ++ [(k, v)] := by
  intro t
  induction t with
  | nil => intro k v _; rfl
  | cons p rest ih =>
    obtain ⟨k2, w⟩ := p
    intro k v h
    have hne : ¬(k2 = k) := by
      intro he
      rw [lookupP, if_pos he] at h
      exact Option.noConfusion h
    have ht : lookupP k rest = none := by
      rw [lookupP, if_neg hne] at h
      exact h
    rw [setFieldP]
    rw [if_neg hne, ih k v ht]
    simp

theorem assignPairs_nodup : ∀ (fs t : List (String × JVal)),
    (((t ++ fs).map Prod.fst)).Nodup → assignPairs t fs = t ++ fs := by
  intro fs
  induction fs with
  | nil =>
    intro t _
    rw [assignPairs]
    simp
  | cons p rest ih =>
    obtain ⟨k, v⟩ := p
    intro t hnd
    rw [assignPairs]
    have hkt : lookupP k t = none := by
      cases hv : lookupP k t with
      | none => rfl
      | some w =>
        exfalso
        have hmem : k ∈ t.map Prod.fst :=
          List.mem_map.mpr ⟨(k, w), lookupP_mem hv, rfl⟩
        have hnd2 : (t.map Prod.fst ++ ((k, v) :: rest).map Prod.fst).Nodup := by
          rw [← List.map_append]
          exact hnd
        have hdisj := (List.nodup_append.mp hnd2).2.2
        exact hdisj hmem (by simp)
    rw [setFieldP_not_mem t k v hkt]
    have hre : ((t ++ [(k, v)]) ++ rest).map Prod.fst =
        (t ++ (k, v) :: rest).map Prod.fst := by
      simp
    rw [ih (t ++ [(k, v)]) (by rw [hre]; exact hnd)]
    simp

-- ### URLSearchParams round trip

theorem takeWhile_app (p : Char → Bool) : ∀ (l1 l2 : List Char),
    (∀ c ∈ l1, p c = true) →
    (l1 ++ l2).takeWhile p = l1 ++ l2.takeWhile p := by
  intro l1
  induction l1 with
  | nil => intro l2 _; rfl
  | cons c t ih =>
    intro l2 h
    rw [List.cons_append, List.takeWhile_cons, if_pos (h c (by simp))]
    rw [ih l2 (fun x hx => h x (by simp [hx]))]
    rfl

theorem dropWhile_app (p : Char → Bool) : ∀ (l1 l2 : List Char),
    (∀ c ∈ l1, p c = true) →
    (l1 ++ l2).dropWhile p = l2.dropWhile p := by
  intro l1
  induction l1 with
  | nil => intro l2 _; rfl
  | cons c t ih =>
    intro l2 h
    rw [List.cons_append, List.dropWhile_cons, if_pos (h c (by simp))]
    exact ih l2 (fun x hx => h x (by simp [hx]))

theorem parsePairSeg_qsPair (k v : String) :
    parsePairSeg (qsPair k v) = some (k, v) := by
  have hne : ∀ c ∈ formEncode k.data, (decide (¬c = '=') : Bool) = true := by
    intro c hc
    have : c ≠ '=' := fun he => formEncode_no_eq (he ▸ hc)
    simp [this]
  have hk : (qsPair k v).takeWhile (fun c => c ≠ '=') = formEncode k.data := by
    rw [qsPair, takeWhile_app _ _ _ hne, List.takeWhile_cons]
    rw [if_neg (by simp)]
    simp
  have hd : (qsPair k v).dropWhile (fun c => c ≠ '=') = '=' :: formEncode v.data := by
    rw [qsPair, dropWhile_app _ _ _ hne, List.dropWhile_cons]
    rw [if_neg (by simp)]
  rw [parsePairSeg]
  simp only [hk, hd]
  rw [formDecode_roundtrip]
  rw [formDecode_roundtrip]

theorem qsPair_ne_nil (k v : String) : qsPair k v ≠ [] := by
  rw [qsPair]
  rcases h : formEncode k.data with _ | ⟨c, t⟩ <;> simp

theorem mem_qsPair {d : Char} {k v : String} (h : d ∈ qsPair k v) :
    d ∈ formEncode k.data ∨ d = '=' ∨ d ∈ formEncode v.data := by
  rw [qsPair] at h
  rcases List.mem_append.mp h with h2 | h2
  · exact Or.inl h2
  · rcases List.mem_cons.mp h2 with h3 | h3
    · exact Or.inr (Or.inl h3)
    · exact Or.inr (Or.inr h3)

theorem qsPair_no_amp {k v : String} : '&' ∉ qsPair k v := by
  intro h
  rcases mem_qsPair h with h2 | h2 | h2
  · exact formEncode_no_amp h2
  · exact absurd h2 (by decide)
  · exact formEncode_no_amp h2

theorem qsPair_no_hash {k v : String} : '#' ∉ qsPair k v := by
  intro h
  rcases mem_qsPair h with h2 | h2 | h2
  · exact formEncode_no_hash h2
  · exact absurd h2 (by decide)
  · exact formEncode_no_hash h2

theorem mem_intercalateChar {d c : Char} : ∀ (parts : List (List Char)),
    d ∈ intercalateChar c parts → d = c ∨ ∃ p ∈ parts, d ∈ p := by
  intro parts
  induction parts with
  | nil => intro h; simp [intercalateChar] at h
  | cons x xs ih =>
    intro h
    cases xs with
    | nil =>
      rw [intercalateChar] at h
      exact Or.inr ⟨x, by simp, h⟩
    | cons y ys =>
      have heq : intercalateChar c (x :: y :: ys) =
          x ++ c :: intercalateChar c (y :: ys) := rfl
      rw [heq] at h
      rcases List.mem_append.mp h with h2 | h2
      · exact Or.inr ⟨x, by simp, h2⟩
      · rcases List.mem_cons.mp h2 with h3 | h3
        · exact Or.inl h3
        · rcases ih h3 with h4 | ⟨p, hp, hdp⟩
          · exact Or.inl h4
          · exact Or.inr ⟨p, by simp [hp], hdp⟩

theorem mapM_parsePairSeg : ∀ (sp : List (String × String)),
    (sp.map (fun p => qsPair p.1 p.2)).mapM parsePairSeg = some sp := by
  intro sp
  induction sp with
  | nil => rfl
  | cons p rest ih =>
    rw [List.map_cons, List.mapM_cons, parsePairSeg_qsPair, ih]
    rfl

theorem qsParse_qsSerialize : ∀ (sp : List (String × String)),
    qsParse (qsSerialize sp) = some sp := by
  intro sp
  cases sp with
  | nil => rfl
  | cons p rest =>
    rw [qsParse, qsSerialize]
    have hparts : ∀ q ∈ (p :: rest).map (fun pr => qsPair pr.1 pr.2), '&' ∉ q := by
      intro q hq
      obtain ⟨pr, _, rfl⟩ := List.mem_map.mp hq
      exact qsPair_no_amp
    rw [splitChar_intercalate _ (by simp) hparts]
    have hfilter : ((p :: rest).map (fun pr => qsPair pr.1 pr.2)).filter
        (fun s => !s.isEmpty) = (p :: rest).map (fun pr => qsPair pr.1 pr.2) := by
      apply List.filter_eq_self.mpr
      intro q hq
      obtain ⟨pr, _, rfl⟩ := List.mem_map.mp hq
      have := qsPair_ne_nil pr.1 pr.2
      simp [List.isEmpty_iff, this]
    rw [hfilter, mapM_parsePairSeg]

-- ### Fragment dispatch

theorem startsWithJson_cons (c1 : Char) (t : List Char) (h1 : ¬c1 = lbrace)
    (h2 : ¬c1 = '%') : startsWithJson (c1 :: t) = false := by
  rw [startsWithJson]
  simp [List.take, h1, h2]

theorem hexUpper_inj7 : ∀ x, x < 16 → (hexUpper x = '7' ↔ x = 7) := by decide

theorem hexUpper_injB : ∀ x, x < 16 → (hexUpper x = 'B' ↔ x = 11) := by decide

theorem startsWithJson_pct (b : Nat) (hb : b < 256) (hbne : ¬b = 123)
    (t : List Char) : startsWithJson (pctByte b ++ t) = false := by
  rw [pctByte]
  simp only [List.cons_append, List.nil_append]
  rw [startsWithJson]
  simp [List.take]
  constructor
  · decide
  · intro h7
    simp only [hexUpper_inj7 (b / 16) (by omega)] at h7
    simp only [hexUpper_injB (b % 16) (by omega)]
    omega

theorem utf8Enc_head (n : Nat) : ∃ b0 bs, utf8Enc n = b0 :: bs ∧
    (b0 = n ∨ 192 ≤ b0) := by
  rw [utf8Enc]
  by_cases h1 : n < 128
  · rw [if_pos h1]; exact ⟨n, [], rfl, Or.inl rfl⟩
  · rw [if_neg h1]
    by_cases h2 : n < 2048
    · rw [if_pos h2]; exact ⟨_, _, rfl, Or.inr (by omega)⟩
    · rw [if_neg h2]
      by_cases h3 : n < 65536
      · rw [if_pos h3]; exact ⟨_, _, rfl, Or.inr (by omega)⟩
      · rw [if_neg h3]; exact ⟨_, _, rfl, Or.inr (by omega)⟩

theorem toNat_123_lbrace {c : Char} (h : c.toNat = 123) : c = lbrace := by
  have h2 := Char.ofNat_toNat c
  rw [h] at h2
  exact h2.symm

theorem startsWithJson_formChar (c : Char) (hc : ¬c = lbrace) (t : List Char) :
    startsWithJson (formEncodeChar c ++ t) = false := by
  rw [formEncodeChar]
  by_cases hs : formSafe c
  · rw [if_pos hs]
    simp only [List.cons_append, List.nil_append]
    exact startsWithJson_cons c _ hc
      (fun he => by rw [he] at hs; exact absurd hs (by decide))
  · rw [if_neg hs]
    by_cases hsp : c = ' '
    · rw [if_pos hsp]
      simp only [List.cons_append, List.nil_append]
      exact startsWithJson_cons '+' _ (by decide) (by decide)
    · rw [if_neg hsp]
      obtain ⟨b0, bs, he, hb0⟩ := utf8Enc_head c.toNat
      rw [he, List.flatMap_cons, List.append_assoc]
      apply startsWithJson_pct b0
      · exact utf8Enc_bytes_lt (char_toNat_lt c) b0 (by rw [he]; simp)
      · rcases hb0 with h | h
        · intro hb
          rw [h] at hb
          exact hc (toNat_123_lbrace hb)
        · omega

theorem startsWithJson_qsFrag (k v : String) (hk : k.data.head? ≠ some lbrace)
    (T : List Char) : startsWithJson (qsPair k v ++ T) = false := by
  rw [qsPair]
  rcases hkd : k.data with _ | ⟨c, cs⟩
  · show startsWithJson ((formEncode [] ++ '=' :: formEncode v.data) ++ T) = false
    simp only [formEncode, List.flatMap_nil, List.nil_append, List.cons_append]
    exact startsWithJson_cons '=' _ (by decide) (by decide)
  · have hc : ¬c = lbrace := by
      rw [hkd] at hk
      simp at hk
      exact hk
    show startsWithJson ((formEncode (c :: cs) ++ '=' :: formEncode v.data) ++ T) =
      false
    have hfe : formEncode (c :: cs) = formEncodeChar c ++ formEncode cs := by
      simp [formEncode]
    rw [hfe, List.append_assoc, List.append_assoc]
    exact startsWithJson_formChar c hc _

theorem compEncode_lbrace_cons (t : List Char) :
    compEncode (lbrace :: t) = '%' :: '7' :: 'B' :: compEncode t := by
  show (lbrace :: t).flatMap compEncodeChar = _
  rw [List.flatMap_cons]
  have h : compEncodeChar lbrace = ['%', '7', 'B'] := by decide
  rw [h]
  rfl

theorem startsWithJson_compObj (t : List Char) :
    startsWithJson (compEncode (lbrace :: t)) = true := by
  rw [compEncode_lbrace_cons, startsWithJson]
  simp [List.take]

theorem noUndefFields_iff : ∀ fs : List (String × JVal),
    noUndefFields fs = true ↔ ∀ p ∈ fs, noUndef p.2 = true := by
  intro fs
  induction fs with
  | nil => simp [noUndefFields]
  | cons p rest ih =>
    obtain ⟨k, v⟩ := p
    rw [noUndefFields]
    simp [ih]

theorem isStr_not_objType {v : JVal} (h : v.isStr = true) :
    isObjType v = false := by
  cases v <;> simp [JVal.isStr] at h <;> rfl

theorem isStr_prim_str {v : JVal} (h : v.isStr = true) :
    ∃ s, v = .str s ∧ primToParamString v = s := by
  cases v with
  | str s => exact ⟨s, rfl, rfl⟩
  | undef => simp [JVal.isStr] at h
  | null => simp [JVal.isStr] at h
  | bool b => simp [JVal.isStr] at h
  | num n => simp [JVal.isStr] at h
  | arr xs => simp [JVal.isStr] at h
  | obj fs => simp [JVal.isStr] at h

theorem qsSerialize_ne_nil : ∀ (sp : List (String × String)), sp ≠ [] →
    qsSerialize sp ≠ [] := by
  intro sp h
  rcases sp with _ | ⟨p, rest⟩
  · exact absurd rfl h
  · rw [qsSerialize]
    rcases rest with _ | ⟨q, rest2⟩
    · simp only [List.map_cons, List.map_nil]
      rw [intercalateChar]
      exact qsPair_ne_nil _ _
    · simp only [List.map_cons]
      have heq : intercalateChar '&' (qsPair p.1 p.2 :: qsPair q.1 q.2 ::
          (rest2.map fun pr => qsPair pr.1 pr.2)) =
          qsPair p.1 p.2 ++ '&' :: intercalateChar '&' (qsPair q.1 q.2 ::
            (rest2.map fun pr => qsPair pr.1 pr.2)) := rfl
      rw [heq]
      rcases hq : qsPair p.1 p.2 with _ | ⟨c, t⟩
      · exact absurd hq (qsPair_ne_nil _ _)
      · simp

theorem mem_qsSerialize {d : Char} (sp : List (String × String))
    (h : d ∈ qsSerialize sp) : d = '&' ∨ ∃ pr ∈ sp, d ∈ qsPair pr.1 pr.2 := by
  rw [qsSerialize] at h
  rcases mem_intercalateChar _ h with h2 | ⟨p, hp, hdp⟩
  · exact Or.inl h2
  · obtain ⟨pr, hpr, rfl⟩ := List.mem_map.mp hp
    exact Or.inr ⟨pr, hpr, hdp⟩

theorem qsSerialize_no_hash (sp : List (String × String)) :
    '#' ∉ qsSerialize sp := by
  intro h
  rcases mem_qsSerialize sp h with h2 | ⟨pr, _, hdp⟩
  · exact absurd h2 (by decide)
  · exact qsPair_no_hash hdp

theorem parseHash_single (frag : List Char) (hne : frag ≠ [])
    (hh : '#' ∉ frag) :
    parseHash frag =
      match parsePart frag with
      | some fs => assignPairs [] fs
      | none => [] := by
  rw [parseHash, if_neg (by simp [hne])]
  rw [splitChar_no_sep hh]
  have hf : ([frag].filter (fun p => !p.isEmpty)) = [frag] := by
    simp [List.isEmpty_iff, hne]
  rw [hf]
  cases hp : parsePart frag with
  | none => simp [List.mapM.loop, hp]
  | some fs => simp [List.mapM.loop, hp]

/-- C9 (corrected): serializing a sorted map to the URL fragment and parsing
it back yields the sorted map (so the entries of `M` up to stable key order):
(a) in the query-string form when every value is a string and no key opens
with a brace, (b) in the JSON segment form when some value has object type
and no `undefined` occurs; scalar non-strings do not survive the
query-string leg (see the counterexample), because `URLSearchParams`
string-coerces them. -/
theorem c9_url_round_trip (pairs : List (String × JVal))
    (hnd : (pairs.map Prod.fst).Nodup) :
    (pairs.all (fun p => p.2.isStr) = true →
      (∀ p ∈ pairs, p.1.data.head? ≠ some lbrace) →
      parseHash (serializeObj pairs) = sortByKey pairs) ∧
    (pairs.any (fun p => isObjType p.2) = true →
      noUndefFields pairs = true →
      parseHash (serializeObj pairs) = sortByKey pairs) ∧
    (∀ k, lookupP k (sortByKey pairs) = lookupP k pairs) := by
  refine ⟨?_, ?_, fun k => lookupP_sortByKey pairs hnd k⟩
  · intro hstr hk
    by_cases hemp : pairs = []
    · subst hemp
      rfl
    · have hie : pairs.isEmpty = false := by
        rcases pairs with _ | ⟨p0, prest⟩
        · exact absurd rfl hemp
        · rfl
      have hany : pairs.any (fun p => isObjType p.2) = false := by
        rw [List.any_eq_false]
        intro p hp
        have hps := List.all_eq_true.mp hstr p hp
        simp [isStr_not_objType hps]
      rw [serializeObj, if_neg (by simp [hie]), if_neg (by simp [hany])]
      have hspne : ((sortByKey pairs).map
          (fun p => (p.1, primToParamString p.2))) ≠ [] := by
        have hlen := (sortByKey_perm pairs).length_eq
        intro hsnil
        have h0 : (sortByKey pairs).length = 0 := by
          have := congrArg List.length hsnil
          simpa using this
        rcases pairs with _ | ⟨p0, prest⟩
        · exact absurd rfl hemp
        · rw [hlen] at h0
          simp at h0
      have hfragne := qsSerialize_ne_nil _ hspne
      have hnohash := qsSerialize_no_hash ((sortByKey pairs).map
        (fun p => (p.1, primToParamString p.2)))
      rw [parseHash_single _ hfragne hnohash]
      have hstart : startsWithJson (qsSerialize ((sortByKey pairs).map
          (fun p => (p.1, primToParamString p.2)))) = false := by
        rcases hsps : (sortByKey pairs).map
            (fun p => (p.1, primToParamString p.2)) with _ | ⟨q0, qrest⟩
        · exact absurd hsps hspne
        · have hT : ∃ T, qsSerialize (q0 :: qrest) = qsPair q0.1 q0.2 ++ T := by
            cases qrest with
            | nil =>
              refine ⟨[], ?_⟩
              rw [qsSerialize]
              simp only [List.map_cons, List.map_nil]
              rw [intercalateChar]
              simp
            | cons q1 qr2 =>
              refine ⟨'&' :: intercalateChar '&' ((q1 :: qr2).map
                (fun pr => qsPair pr.1 pr.2)), ?_⟩
              rfl
          obtain ⟨T, hTe⟩ := hT
          rw [hsps, hTe]
          apply startsWithJson_qsFrag
          have hq0mem : q0 ∈ (sortByKey pairs).map
              (fun p => (p.1, primToParamString p.2)) := by
            rw [hsps]
            simp
          obtain ⟨q, hqmem, hqe⟩ := List.mem_map.mp hq0mem
          have hqp : q ∈ pairs := (sortByKey_perm pairs).mem_iff.mp hqmem
          have hhead := hk q hqp
          rw [← hqe]
          simpa using hhead
      rw [parsePart, if_neg (by simp [hstart])]
      rw [qsParse_qsSerialize]
      show assignPairs [] (((sortByKey pairs).map
          (fun p => (p.1, primToParamString p.2))).map
          (fun kv => (kv.1, JVal.str kv.2))) = sortByKey pairs
      have hmapid : ((sortByKey pairs).map
          (fun p => (p.1, primToParamString p.2))).map
          (fun kv => (kv.1, JVal.str kv.2)) = sortByKey pairs := by
        rw [List.map_map]
        have hcong : ∀ q ∈ sortByKey pairs,
            ((fun kv => (kv.1, JVal.str kv.2)) ∘
              (fun p => (p.1, primToParamString p.2))) q = id q := by
          intro q hq
          obtain ⟨qk, qv⟩ := q
          have hqp : (qk, qv) ∈ pairs := (sortByKey_perm pairs).mem_iff.mp hq
          have hqs : qv.isStr = true := List.all_eq_true.mp hstr (qk, qv) hqp
          obtain ⟨s, hse, hpe⟩ := isStr_prim_str hqs
          simp only [Function.comp, id]
          rw [hpe, hse]
        rw [List.map_congr_left hcong, List.map_id]
      rw [hmapid]
      rw [assignPairs_nodup _ [] (by simpa using sortByKey_keys_nodup hnd)]
      simp
  · intro hany hnu
    have hemp : pairs ≠ [] := by
      intro he
      rw [he] at hany
      simp at hany
    have hie : pairs.isEmpty = false := by
      rcases pairs with _ | ⟨p0, prest⟩
      · exact absurd rfl hemp
      · rfl
    rw [serializeObj, if_neg (by simp [hie]), if_pos hany]
    have hnus : noUndefFields (sortByKey pairs) = true := by
      rw [noUndefFields_iff]
      intro p hp
      exact (noUndefFields_iff pairs).mp hnu p ((sortByKey_perm pairs).mem_iff.mp hp)
    have hstrip : stripUndef (JVal.obj (sortByKey pairs)) =
        JVal.obj (sortByKey pairs) := stripUndef_noUndef _ (show noUndef
          (JVal.obj (sortByKey pairs)) = true from hnus)
    rw [hstrip]
    have hjp : jprint (JVal.obj (sortByKey pairs)) =
        lbrace :: jprintFields (sortByKey pairs) := rfl
    have hfragne : compEncode (jprint (JVal.obj (sortByKey pairs))) ≠ [] := by
      rw [hjp, compEncode_lbrace_cons]
      simp
    have hnohash : '#' ∉ compEncode (jprint (JVal.obj (sortByKey pairs))) :=
      compEncode_no_hash
    rw [parseHash_single _ hfragne hnohash]
    rw [parsePart, if_pos (by rw [hjp]; exact startsWithJson_compObj _)]
    rw [compDecode_roundtrip]
    show (match (match jsonParseFull (jprint (JVal.obj (sortByKey pairs))) with
        | some (JVal.obj fs) => some fs
        | some _ => some []
        | none => none) with
      | some fs => assignPairs [] fs
      | none => []) = sortByKey pairs
    have hnuo : noUndef (JVal.obj (sortByKey pairs)) = true := hnus
    rw [jsonParseFull_print _ hnuo]
    show assignPairs [] (sortByKey pairs) = sortByKey pairs
    rw [assignPairs_nodup _ [] (by simpa using sortByKey_keys_nodup hnd)]
    simp

/-- Witness for C9: a two-string map round-trips through the query-string
form, a map holding an object round-trips through the JSON form, and the
sorted map answers the same lookups. -/
theorem c9_witness :
    parseHash (serializeObj [("b", JVal.str "2"), ("a", JVal.str "hi")]) =
      sortByKey [("b", JVal.str "2"), ("a", JVal.str "hi")] ∧
    parseHash (serializeObj [("k", JVal.obj [("x", JVal.num 1)])]) =
      sortByKey [("k", JVal.obj [("x", JVal.num 1)])] ∧
    lookupP "a" (sortByKey [("b", JVal.str "2"), ("a", JVal.str "hi")]) =
      lookupP "a" [("b", JVal.str "2"), ("a", JVal.str "hi")] :=
  ⟨(c9_url_round_trip [("b", JVal.str "2"), ("a", JVal.str "hi")]
      (by decide)).1 (by decide) (by decide),
   (c9_url_round_trip [("k", JVal.obj [("x", JVal.num 1)])]
      (by decide)).2.1 (by decide) (by decide),
   (c9_url_round_trip [("b", JVal.str "2"), ("a", JVal.str "hi")]
      (by decide)).2.2 "a"⟩

/-- Counterexample for C9 as stated: the scalar map `\x7bcount: 3\x7d`
serializes through `URLSearchParams`, which coerces the number to the
string `"3"`; parsing the fragment back yields the string, not the
number. -/
theorem c9_counterexample :
    parseHash (serializeObj [("count", JVal.num 3)]) =
      [("count", JVal.str "3")] ∧
    JVal.str "3" ≠ JVal.num 3 :=
  ⟨rfl, fun h => JVal.noConfusion h⟩

end TagMark
